import Mathlib

/-!
Verification of the AgentMemory MCP server core (SQLite + FTS5 memory store).

This file gives a shallow embedding of the storage-and-retrieval core:
the file blob store (src/storage/fileStore.ts), the relational entity
store with its FTS5 synchronization triggers (src/db/schema.ts,
src/repositories/memoryRepo.ts), the ranking engine
(src/search/searchService.ts) and the tool layer (src/index.ts).

Engine semantics built into the model (validated against the SQLite
engine the server links, `better-sqlite3`):
* foreign keys are enforced (`better-sqlite3` compiles its bundled SQLite
  with SQLITE_DEFAULT_FOREIGN_KEYS=1), so `ON DELETE CASCADE` on the
  keywords table is active, and the child table delete trigger fires for
  cascade-deleted rows;
* `memories_fts` is an external-content FTS5 table.  The special
  `'delete'` command used by the triggers passes only the rowid and none
  of the old column values; for an external-content table FTS5 needs the
  old values to locate the postings, so such a command removes nothing.
  The model therefore keeps every inserted index document: the fts index
  of the model is the append-only list of documents the triggers
  inserted, and a rowid matches a term when any of its documents
  contains it (this is observable engine behaviour: after an UPDATE the
  row still matches terms of its pre-update summary);
* `GROUP_CONCAT` over the keywords table enumerates rows in primary-key
  index order, i.e. keywords in ascending binary order; cascades and
  bulk deletes visit rows in the same order;
* during a cascade the parent row is already deleted, so the subquery
  `SELECT summary FROM memories WHERE id = old.memory_id` in the
  keyword delete trigger yields NULL.

Strings: JavaScript `trim`/`toLowerCase` are modelled at the character
level (`jsTrim`/`jsToLower`), agreeing with them on ASCII data, which is
all the proofs below use.
`String(n)` / template interpolation of a number is `Nat.repr`.
-/

namespace AgentMemory

/-! ## Generic character-list utilities used by the models -/

/-!
All recursions below are structural (fuel-based where the natural
recursion is not), so that every definition reduces inside the kernel
and concrete scenarios can be settled by `decide`/`rfl`.  Likewise the
models use character-list versions of the JavaScript string functions
instead of the position-based Lean `String` primitives. -/

/-- Fueled worker for `jsSetDedup`; the fuel only needs to dominate the
list length. -/
def jsSetDedupFuel : Nat → List String → List String
  | _, [] => []
  | 0, l => l
  | fuel + 1, x :: xs => x :: jsSetDedupFuel fuel (xs.filter (fun y => y ≠ x))

/-- Deduplication that keeps the first occurrence of each element,
the behaviour of the JavaScript idiom of spreading a `Set` built from an
array (`[...new Set(xs)]`). -/
def jsSetDedup (l : List String) : List String :=
  jsSetDedupFuel l.length l

/-- Fueled worker for `collapseRuns`. -/
def collapseRunsFuel (p : Char → Bool) (r : Char) : Nat → List Char → List Char
  | _, [] => []
  | 0, l => l
  | fuel + 1, c :: cs =>
    if p c then r :: collapseRunsFuel p r fuel (cs.dropWhile p)
    else c :: collapseRunsFuel p r fuel cs

/-- Replace every maximal run of characters satisfying `p` by the single
character `r` (the effect of a JavaScript `replace(/[…]+/g, '-')`). -/
def collapseRuns (p : Char → Bool) (r : Char) (l : List Char) : List Char :=
  collapseRunsFuel p r l.length l

/-- Join a list of character lists with a separator, the character-level
model of SQLite `GROUP_CONCAT(x, sep)` and JavaScript `Array.join`. -/
def charJoin (sep : List Char) : List (List Char) → List Char
  | [] => []
  | [x] => x
  | x :: y :: rest => x ++ sep ++ charJoin sep (y :: rest)

/-- Fueled worker for `splitChars`; each step consumes at least one
character, so fuel dominating the length suffices. -/
def splitCharsFuel (sep : List Char) : Nat → List Char → List (List Char)
  | _, [] => [[]]
  | 0, l => [l]
  | fuel + 1, c :: cs =>
    if sep ≠ [] ∧ sep.isPrefixOf (c :: cs) = true then
      [] :: splitCharsFuel sep fuel ((c :: cs).drop sep.length)
    else
      match splitCharsFuel sep fuel cs with
      | [] => [[c]]
      | t :: ts => (c :: t) :: ts

/-- Split at each non-overlapping, leftmost-first occurrence of the
(non-empty) separator: the character-level model of JavaScript
`String.prototype.split(sep)`. -/
def splitChars (sep : List Char) (l : List Char) : List (List Char) :=
  splitCharsFuel sep l.length l

/-- Split at every character satisfying `p` (JavaScript split with a
single-character separator, or with a character-class regex). -/
def splitByPred (p : Char → Bool) : List Char → List (List Char)
  | [] => [[]]
  | c :: cs =>
    if p c then [] :: splitByPred p cs
    else
      match splitByPred p cs with
      | [] => [[c]]
      | t :: ts => (c :: t) :: ts

/-- String join with a separator. -/
def strJoin (sep : String) (l : List String) : String :=
  String.mk (charJoin sep.data (l.map String.data))

/-- JavaScript `toLowerCase` on ASCII data. -/
def jsToLower (s : String) : String :=
  String.mk (s.data.map Char.toLower)

/-- JavaScript `trim` on ASCII data. -/
def jsTrim (s : String) : String :=
  String.mk (((s.data.dropWhile Char.isWhitespace).reverse.dropWhile
    Char.isWhitespace).reverse)

instance {ε α : Type} [DecidableEq ε] [DecidableEq α] :
    DecidableEq (Except ε α) := fun a b =>
  match a, b with
  | .ok x, .ok y =>
    if h : x = y then isTrue (congrArg Except.ok h) else
      isFalse (fun c => h (by injection c))
  | .error x, .error y =>
    if h : x = y then isTrue (congrArg Except.error h) else
      isFalse (fun c => h (by injection c))
  | .ok _, .error _ => isFalse (fun c => Except.noConfusion c)
  | .error _, .ok _ => isFalse (fun c => Except.noConfusion c)

/-! ## File store (src/storage/fileStore.ts)

The file system is a list of path/file bindings; the most recent binding
for a path wins, so prepending models `writeFileSync`.  A file is either
readable content or a stat-able file whose read raises an IO error
(e.g. permission denied), carrying the size `statSync` reports and the
message of the error the runtime would throw. -/

inductive FileData where
  | ok (content : String)
  | denied (size : Nat) (emsg : String)
deriving DecidableEq

/-- A file system: path/file bindings, most recent first. -/
abbrev Fs := List (String × FileData)

/-- The empty file system. -/
def fsEmpty : Fs := []

/-- existsSync. -/
def fsExists (fs : Fs) (p : String) : Bool :=
  fs.any (fun e => e.1 == p)

/-- Look up the current binding of a path. -/
def fsFind (fs : Fs) (p : String) : Option FileData :=
  (fs.find? (fun e => e.1 == p)).map (·.2)

/-- writeFileSync: bind `p` to fresh readable content. -/
def fsWrite (fs : Fs) (p content : String) : Fs :=
  (p, FileData.ok content) :: fs

/-- The size `statSync` reports. -/
def fileSize : FileData → Nat
  | .ok c => c.utf8ByteSize
  | .denied n _ => n

/-- JavaScript `String(x).padStart(2, '0')`. -/
def padStart2 (s : String) : String :=
  if s.length < 2 then String.mk (List.replicate (2 - s.length) '0') ++ s else s

/-- Node `path.basename` (POSIX): the part after the last slash.  The
server only ever passes slash-free slugs, so trailing-separator
subtleties of the real function are irrelevant here. -/
def jsBasename (s : String) : String :=
  ((splitByPred (fun c => c = '/') s.data).map String.mk).getLastD s

/-- A calendar date as the JavaScript `Date` accessors expose it:
`getFullYear`, `getMonth` (0-based) and `getDate`. -/
structure JsDate where
  year : Nat
  monthIndex : Nat
  day : Nat
deriving DecidableEq

/-- The dated directory `join(baseDir, year, month, day)` of
`FileStore.saveDated`. -/
def datedDir (baseDir : String) (now : JsDate) : String :=
  baseDir ++ "/" ++ Nat.repr now.year ++ "/" ++
    padStart2 (Nat.repr (now.monthIndex + 1)) ++ "/" ++ padStart2 (Nat.repr now.day)

/-- The candidate path with collision suffix `i`:
`join(targetDir, stem + "-" + i + ".md")`. -/
def mkCand (dir stem : String) (i : Nat) : String :=
  dir ++ "/" ++ stem ++ "-" ++ Nat.repr i ++ ".md"

/-- The collision loop of `saveDated`: starting at suffix `i`, return the
first candidate that does not exist.  The loop of the source is bounded
only by the file system being finite; `fuel` makes the recursion
structural, and `saveDated` passes fuel that provably suffices. -/
def findFree (fs : Fs) (dir stem : String) : Nat → Nat → String
  | i, 0 => mkCand dir stem i
  | i, fuel + 1 =>
    let c := mkCand dir stem i
    if fsExists fs c then findFree fs dir stem (i + 1) fuel else c

/-- Result of `FileStore.saveDated`: the final path and the reported
byte length (`content.length`, UTF-16 units in JavaScript; the data in
this development is ASCII, where this equals the character count). -/
structure StoredFileResult where
  path : String
  bytes : Nat
deriving DecidableEq

/-- JavaScript `String.prototype.endsWith` at the character level. -/
def jsEndsWith (s suffx : String) : Bool :=
  suffx.data.isSuffixOf s.data

/-- The base filename `saveDated` uses: the name hint (or `note.md` when
it is falsy) stripped to its basename, with `.md` appended unless
already present. -/
def forcedName (basenameHint : String) : String :=
  let rawName := jsBasename (if basenameHint = "" then "note.md" else basenameHint)
  if jsEndsWith rawName ".md" then rawName else rawName ++ ".md"

/-- The collision stem: `finalFileName.replace(/\.md$/i, '')`.  The
forced name always ends in the three characters `.md`, so this is
dropping them. -/
def stemOf (basenameHint : String) : String :=
  String.mk ((forcedName basenameHint).data.take
    ((forcedName basenameHint).data.length - 3))

/-- FileStore.saveDated: derive the dated directory from `now`, sanitize
the name hint to a base filename with a forced `.md` extension, probe
for a collision-free name, then write. -/
def saveDated (baseDir : String) (fs : Fs) (basenameHint content : String)
    (now : JsDate) : StoredFileResult × Fs :=
  let finalFileName := forcedName basenameHint
  let targetDir := datedDir baseDir now
  let candidate := targetDir ++ "/" ++ finalFileName
  if fsExists fs candidate then
    let c := findFree fs targetDir (stemOf basenameHint) 1 (fs.length + 1)
    (⟨c, content.length⟩, fsWrite fs c content)
  else
    (⟨candidate, content.length⟩, fsWrite fs candidate content)

/-- Result shape of `FileStore.readLimited`: a JavaScript object whose
fields may be absent (`none`). -/
structure ReadResult where
  file_exists : Bool
  file_size : Option Nat := none
  file_contents : Option String := none
deriving DecidableEq

/-- The `toFixed(2)` megabyte figure inside the placeholder message,
modelled with integer rounding of hundredths.  (The source formats an
IEEE double; the exact digits never matter to any property below.) -/
def mbFixed2 (size : Nat) : String :=
  let h := (size * 100 + 524288) / 1048576
  Nat.repr (h / 100) ++ "." ++ padStart2 (Nat.repr (h % 100))

/-- Placeholder returned instead of oversized content. -/
def tooLargeMsg (size : Nat) : String :=
  "[File too large: " ++ mbFixed2 size ++ "MB. Contents not loaded.]"

/-- Error marker produced by the catch branch. -/
def readErrMsg (emsg : String) : String :=
  "[Error reading file: " ++ emsg ++ "]"

/-- FileStore.readLimited: missing file reported as non-existence,
oversized file reported with a placeholder, IO failure caught and
reported with an error marker. -/
def readLimited (fs : Fs) (path : String) (limitBytes : Nat) : ReadResult :=
  match fsFind fs path with
  | none => { file_exists := false }
  | some (.ok c) =>
    if limitBytes < c.utf8ByteSize then
      { file_exists := true, file_size := some c.utf8ByteSize,
        file_contents := some (tooLargeMsg c.utf8ByteSize) }
    else
      { file_exists := true, file_size := some c.utf8ByteSize,
        file_contents := some c }
  | some (.denied n emsg) =>
    if limitBytes < n then
      { file_exists := true, file_size := some n,
        file_contents := some (tooLargeMsg n) }
    else
      { file_exists := false, file_contents := some (readErrMsg emsg) }

/-! ## Entity store and lexical index (src/db/schema.ts, src/db/connection.ts)

The relational state: the `memories` table (with the AUTOINCREMENT
counter), the `keywords` table, and the FTS index.  Per the header
notes, the FTS index is modelled as the append-only list of documents
the triggers inserted: the value-less `'delete'` command of the
triggers removes no postings on an external-content table, so nothing
is ever removed from it. -/

structure MemRow where
  id : Nat
  file_path : String
  summary : String
  created_at : Nat
deriving DecidableEq

/-- One document inserted into `memories_fts`.  The summary column is
`NULL` (`none`) when the inserting trigger ran after the parent row was
cascade-deleted. -/
structure FtsDoc where
  rowid : Nat
  summary : Option String
  keywords : String
deriving DecidableEq

structure DB where
  nextId : Nat
  memories : List MemRow
  keywords : List (Nat × String)
  fts : List FtsDoc
deriving DecidableEq

/-- A fresh database, as `initializeSchema` leaves it. -/
def DB.empty : DB := ⟨1, [], [], []⟩

/-- SELECT * FROM memories WHERE id = ?. -/
def memFind (db : DB) (id : Nat) : Option MemRow :=
  db.memories.find? (fun m => m.id == id)

/-- SELECT summary FROM memories WHERE id = ? (NULL when absent). -/
def summaryOf (db : DB) (id : Nat) : Option String :=
  (memFind db id).map (·.summary)

/-- The keyword rows of one memory, in primary-key index order
(ascending binary order), as `GROUP_CONCAT` and bulk deletes visit
them. -/
def kwSorted (db : DB) (id : Nat) : List String :=
  List.insertionSort (fun a b : String => a ≤ b)
    ((db.keywords.filter (fun e => e.1 == id)).map (·.2))

/-- GROUP_CONCAT(keyword, ' ') over one memory, COALESCEd to the empty
string by the triggers when there are no rows. -/
def groupConcatSpace (db : DB) (id : Nat) : String :=
  strJoin " " (kwSorted db id)

/-- INSERT INTO memories_fts(rowid, summary, keywords) VALUES (…). -/
def ftsInsertDoc (db : DB) (rowid : Nat) (s : Option String) (k : String) : DB :=
  { db with fts := db.fts ++ [⟨rowid, s, k⟩] }

/-- INSERT INTO memories_fts(memories_fts, rowid) VALUES ('delete', ?).
The command names no column values, so on this external-content table
it removes no postings (see the header): the model state is unchanged. -/
def ftsDeleteCmd (db : DB) (_rowid : Nat) : DB := db

/-- INSERT INTO memories (file_path, summary) VALUES (?, ?) RETURNING id,
together with the AFTER INSERT trigger `memories_ai`.  Fails on the
UNIQUE constraint of `file_path`. -/
def insertMemoriesRow (db : DB) (path summary : String) (now : Nat) :
    Except String (DB × Nat) :=
  if db.memories.any (fun m => m.file_path == path) then
    .error "UNIQUE constraint failed: memories.file_path"
  else
    let id := db.nextId
    let db1 : DB := { db with
      nextId := db.nextId + 1
      memories := db.memories ++ [⟨id, path, summary, now⟩] }
    -- memories_ai: index the new row (no keyword rows can exist for a
    -- fresh AUTOINCREMENT id)
    .ok (ftsInsertDoc db1 id (some summary) (groupConcatSpace db1 id), id)

/-- INSERT INTO keywords (memory_id, keyword) VALUES (?, ?), together
with the AFTER INSERT trigger `keywords_ai`.  Fails on the composite
primary key or on the (enforced) foreign key. -/
def insertKeywordRow (db : DB) (id : Nat) (k : String) : Except String DB :=
  if memFind db id = none then
    .error "FOREIGN KEY constraint failed"
  else if db.keywords.any (fun e => e.1 == id && e.2 == k) then
    .error "UNIQUE constraint failed: keywords.memory_id, keywords.keyword"
  else
    let db1 : DB := { db with keywords := db.keywords ++ [(id, k)] }
    -- keywords_ai: value-less fts delete (no-op), then reindex
    .ok (ftsInsertDoc (ftsDeleteCmd db1 id) id (summaryOf db1 id)
      (groupConcatSpace db1 id))

/-- Delete the keyword rows named in `ks` for `id`, one row at a time,
firing the AFTER DELETE trigger `keywords_ad` after each row, exactly
as a bulk `DELETE FROM keywords WHERE memory_id = ?` (or a cascade)
does. -/
def deleteKeywordRowsAux (db : DB) (id : Nat) : List String → DB
  | [] => db
  | k :: ks =>
    let db1 : DB := { db with
      keywords := db.keywords.filter (fun e => !(e.1 == id && e.2 == k)) }
    -- keywords_ad: value-less fts delete (no-op), then reindex from the
    -- remaining rows; the summary subquery sees the current memories
    -- table (NULL during a cascade)
    let db2 := ftsInsertDoc (ftsDeleteCmd db1 id) id (summaryOf db1 id)
      (groupConcatSpace db1 id)
    deleteKeywordRowsAux db2 id ks

/-- DELETE FROM keywords WHERE memory_id = ?. -/
def deleteKeywordRows (db : DB) (id : Nat) : DB :=
  deleteKeywordRowsAux db id (kwSorted db id)

/-- UPDATE memories SET summary = ?, created_at = CURRENT_TIMESTAMP
WHERE id = ?, together with the AFTER UPDATE trigger `memories_au`. -/
def sqlUpdateSummary (db : DB) (id : Nat) (s : String) (now : Nat) : DB :=
  match memFind db id with
  | none => db
  | some _ =>
    let db1 : DB := { db with
      memories := db.memories.map (fun m =>
        if m.id == id then { m with summary := s, created_at := now } else m) }
    -- memories_au: value-less fts delete (no-op), then reindex
    ftsInsertDoc (ftsDeleteCmd db1 id) id (some s) (groupConcatSpace db1 id)

/-- MemoryRepository.insert: one transaction inserting the memory row
and then each keyword row; any constraint failure rolls the whole
transaction back (the `Except` then carries no partial state). -/
def repoInsert (db : DB) (path summary : String) (keywords : List String)
    (now : Nat) : Except String (DB × Nat) := do
  let (db1, id) ← insertMemoriesRow db path summary now
  let db2 ← keywords.foldlM (fun d k => insertKeywordRow d id k) db1
  pure (db2, id)

/-- MemoryRepository.update.  `summary` follows the JavaScript truthiness
test `if (summary)` (undefined and the empty string are skipped);
`keywords` follows `if (keywords)` (any present array, including the
empty one, replaces the stored set).  Returns the `SELECT 1 FROM
memories WHERE id = ?` existence flag. -/
def repoUpdate (db : DB) (id : Nat) (summary? : Option String)
    (keywords? : Option (List String)) (now : Nat) :
    Except String (Bool × DB) := do
  let db1 := match summary? with
    | some s => if s = "" then db else sqlUpdateSummary db id s now
    | none => db
  let db2 ← match keywords? with
    | some ks =>
      let d0 := deleteKeywordRows db1 id
      ks.foldlM (fun d k => insertKeywordRow d id k) d0
    | none => pure db1
  pure ((memFind db2 id).isSome, db2)

/-- The keyword list a repository read returns: GROUP_CONCAT(keyword,
', ') followed by the JavaScript `kws ? kws.split(', ') : []`. -/
def readKwList (db : DB) (id : Nat) : List String :=
  let s := strJoin ", " (kwSorted db id)
  if s = "" then [] else (splitChars (", ".data) s.data).map String.mk

/-- MemoryRepository.get. -/
def repoGet (db : DB) (id : Nat) : Option (MemRow × List String) :=
  (memFind db id).map (fun m => (m, readKwList db id))

/-- The ORDER BY created_at DESC relation. -/
def createdDesc (a b : MemRow) : Prop := b.created_at ≤ a.created_at

instance : DecidableRel createdDesc := fun a b =>
  inferInstanceAs (Decidable (b.created_at ≤ a.created_at))

instance : IsTotal MemRow createdDesc :=
  ⟨fun a b => Nat.le_total b.created_at a.created_at⟩

instance : IsTrans MemRow createdDesc :=
  ⟨fun _ _ _ h1 h2 => Nat.le_trans h2 h1⟩

/-- MemoryRepository.list: page of rows ordered by creation time
descending, each with its keyword list. -/
def repoList (db : DB) (limit offset : Nat) : List (MemRow × List String) :=
  (((List.insertionSort createdDesc db.memories).drop offset).take limit).map
    (fun m => (m, readKwList db m.id))

/-- MemoryRepository.count. -/
def repoCount (db : DB) : Nat := db.memories.length

/-- MemoryRepository.delete: DELETE FROM memories WHERE id = ?, with the
AFTER DELETE trigger `memories_ad` (a value-less fts delete) and the
enforced ON DELETE CASCADE on `keywords`, whose per-row delete triggers
fire after the parent row is gone.  Returns `changes > 0`. -/
def repoDelete (db : DB) (id : Nat) : Bool × DB :=
  match memFind db id with
  | none => (false, db)
  | some _ =>
    let db1 : DB := { db with
      memories := db.memories.filter (fun m => !(m.id == id)) }
    let db2 := ftsDeleteCmd db1 id
    (true, deleteKeywordRowsAux db2 id (kwSorted db2 id))

/-! ## Search service (src/search/searchService.ts)

BM25 scoring over corpus statistics lives inside SQLite; the model takes
it as a parameter `bm25fn` applied to the two column weights and the
rowid, exactly where the SQL calls `bm25(memories_fts, ?, ?)`.  The
MATCH semantics over the (corrupted-by-design, see header) index is
term containment over the accumulated documents of a rowid, with the
unicode61 tokenizer modelled for ASCII as splitting at non-alphanumeric
characters and lower-casing. -/

attribute [local semireducible] Rat.mul Rat.sub Rat.add

/-- The REAL-arithmetic injection of an integer count, written with the
explicit constructor so that scores evaluate inside the kernel. -/
def ratOfNat (n : Nat) : ℚ := Rat.ofInt (Int.ofNat n)

/-- The unicode61 tokenizer on ASCII text. -/
def tokensOf (s : String) : List String :=
  (((splitByPred (fun c => !c.isAlphanum) s.data).map String.mk).filter
    (fun t => t ≠ "")).map jsToLower

/-- Postings membership: `rowid` matches `term` when any document ever
indexed for it contains the term. -/
def ftsRowHasTerm (db : DB) (rowid : Nat) (term : String) : Bool :=
  db.fts.any (fun d =>
    d.rowid == rowid &&
      ((match d.summary with
        | some s => tokensOf s
        | none => []) ++ tokensOf d.keywords).contains term)

/-- memories_fts MATCH `q` for one rowid: every term of the query must
match (the implicit AND of FTS5 query syntax). -/
def ftsMatch (db : DB) (q : String) (rowid : Nat) : Bool :=
  (tokensOf q).all (ftsRowHasTerm db rowid)

/-- SearchService.sanitize: double embedded quotes, replace bracket
characters by spaces, collapse whitespace runs, trim. -/
def sanitize (q : String) : String :=
  let dupQuotes := q.data.flatMap (fun c => if c = '\"' then ['\"', '\"'] else [c])
  let brackets : List Char := ['(', ')', Char.ofNat 123, Char.ofNat 125, '[', ']']
  let deBracketed := dupQuotes.map (fun c => if brackets.contains c then ' ' else c)
  jsTrim (String.mk (collapseRuns (fun c => c.isWhitespace) ' ' deBracketed))

/-- One row of the ranked CTE plus its final score, the shape
`SearchRow` of src/schemas.ts. -/
structure SearchRow where
  id : Nat
  file_path : String
  summary : String
  created_at : Nat
  bm25_score : ℚ
  matched_keywords : Nat
  final_score : ℚ
deriving DecidableEq

/-- The correlated subquery `COUNT(DISTINCT k.keyword) … WHERE
k.memory_id = m.id AND k.keyword IN (…)` (the boost list is already
lower-cased by the caller). -/
def matchedCount (db : DB) (boostLower : List String) (id : Nat) : Nat :=
  (((db.keywords.filter (fun e => e.1 == id)).map (·.2)).filter
    (fun k => boostLower.contains k)).dedup.length

/-- Ascending order on the stage-1 BM25 score. -/
def bm25LE (a b : MemRow × ℚ) : Prop := a.2 ≤ b.2

instance : DecidableRel bm25LE := fun a b =>
  inferInstanceAs (Decidable (a.2 ≤ b.2))

instance : IsTotal (MemRow × ℚ) bm25LE := ⟨fun a b => le_total a.2 b.2⟩

instance : IsTrans (MemRow × ℚ) bm25LE := ⟨fun _ _ _ => le_trans⟩

/-- Ascending order on the final score. -/
def finalLE (a b : SearchRow) : Prop := a.final_score ≤ b.final_score

instance : DecidableRel finalLE := fun a b =>
  inferInstanceAs (Decidable (a.final_score ≤ b.final_score))

instance : IsTotal SearchRow finalLE :=
  ⟨fun a b => le_total a.final_score b.final_score⟩

instance : IsTrans SearchRow finalLE := ⟨fun _ _ _ => le_trans⟩

/-- Stage 1 of SearchService.run: the `ranked` CTE — candidates matching
the sanitized query, scored, ordered ascending by BM25 score, LIMITed
to `limit * 2`. -/
def stage1 (db : DB) (bm25fn : ℚ → ℚ → Nat → ℚ) (sanitized : String)
    (summaryWeight keywordWeight : ℚ) (limit : Nat) : List (MemRow × ℚ) :=
  (List.insertionSort bm25LE
    ((db.memories.filter (fun m => ftsMatch db sanitized m.id)).map
      (fun m => (m, bm25fn summaryWeight keywordWeight m.id)))).take (limit * 2)

/-- SearchService.run: sanitize, overfetch `2×limit` candidates by BM25,
annotate each with its boost-keyword hit count and final score, re-sort
ascending by final score.  An empty sanitized query is an FTS5 syntax
error, which better-sqlite3 surfaces as a thrown exception. -/
def searchRun (db : DB) (bm25fn : ℚ → ℚ → Nat → ℚ) (query : String)
    (keywords : List String) (limit : Nat)
    (summaryWeight keywordWeight lambda : ℚ) : Except String (List SearchRow) :=
  let sanitized := sanitize query
  if sanitized = "" then .error "fts5: syntax error"
  else
    let lowered := keywords.map jsToLower
    let rows := (stage1 db bm25fn sanitized summaryWeight keywordWeight limit).map
      (fun p =>
        let mk := matchedCount db lowered p.1.id
        { id := p.1.id, file_path := p.1.file_path, summary := p.1.summary,
          created_at := p.1.created_at, bm25_score := p.2,
          matched_keywords := mk,
          final_score := p.2 - lambda * ratOfNat mk })
    .ok (List.insertionSort finalLE rows)

/-! ## Tool layer (src/index.ts) -/

/-- Keyword normalization of `insertMemory`/`updateMemory`:
`[...new Set(keywords.map(k => k.trim().toLowerCase()).filter(Boolean))].slice(0, 10)`. -/
def normalizeKeywords (keywords : List String) : List String :=
  (jsSetDedup ((keywords.map (fun k => jsToLower (jsTrim k))).filter
    (fun k => k ≠ ""))).take 10

/-- JavaScript `s.split(/\s+/)`: whitespace runs separate tokens, and a
leading or trailing run contributes one empty token. -/
def jsSplitWs (s : String) : List String :=
  if s = "" then [""]
  else
    let toks := ((splitByPred Char.isWhitespace s.data).map String.mk).filter
      (fun t => t ≠ "")
    let lead := if (s.data.head?.map Char.isWhitespace).getD false then [""] else []
    let trail := if (s.data.getLast?.map Char.isWhitespace).getD false then [""] else []
    lead ++ toks ++ trail

/-- Characters the slug keeps: the class `[a-z0-9-]`. -/
def slugAllowed (c : Char) : Bool :=
  ('a' ≤ c && c ≤ 'z') || ('0' ≤ c && c ≤ '9') || c = '-'

/-- Strip one leading dash (the `^-` alternative of
`replace(/^-|-$/g, '')`). -/
def stripLeadDash : List Char → List Char
  | '-' :: t => t
  | l => l

/-- The summary-derived filename slug of `insertMemory`. -/
def slugOf (summary : String) : String :=
  let joined := strJoin "-" ((jsSplitWs (jsToLower summary)).take 8)
  let base := if joined = "" then "memory" else joined
  let step1 := collapseRuns (fun c => !slugAllowed c) '-' base.data
  let step2 := collapseRuns (fun c => c == '-') '-' step1
  let step3 := (stripLeadDash ((stripLeadDash step2.reverse).reverse))
  String.mk (step3.take 50)

/-- Successful result of the insert tool. -/
structure InsertOk where
  db : DB
  id : Nat
  file_path : String
deriving DecidableEq

/-- insertMemory (src/index.ts): validate, normalize keywords, derive
the slug, write the blob, then run the repository insert transaction.
Validation (`InsertMemorySchema`) rejects before any effect; a
repository failure still leaves the already-written blob behind. -/
def insertMemory (baseDir : String) (fs : Fs) (db : DB)
    (content summary : String) (keywords : List String) (date : JsDate)
    (now : Nat) : Fs × Except String InsertOk :=
  if content.length < 1 then (fs, .error "Validation: content")
  else if summary.length < 1 || 1000 < summary.length then
    (fs, .error "Validation: summary")
  else if 10 < keywords.length then (fs, .error "Validation: keywords")
  else
    let normalized := normalizeKeywords keywords
    let slug := slugOf summary
    let (stored, fs1) := saveDated baseDir fs (slug ++ ".md") content date
    match repoInsert db stored.path summary normalized now with
    | .ok (db1, id) => (fs1, .ok ⟨db1, id, stored.path⟩)
    | .error e => (fs1, .error e)

/-- updateMemory (src/index.ts): validate (`UpdateMemorySchema`: at
least one of content/summary/keywords), fetch the existing row,
overwrite the blob when content is given, normalize replacement
keywords when given, then run the repository update. -/
def updateMemory (fs : Fs) (db : DB) (id : Nat)
    (content? summary? : Option String) (keywords? : Option (List String))
    (now : Nat) : Fs × Except String (DB × String) :=
  if id = 0 then (fs, .error "Validation: id")
  else if (match content? with
    | some c => decide (c.length < 1)
    | none => false) then (fs, .error "Validation: content")
  else if (match summary? with
    | some s => s.length < 1 || 1000 < s.length
    | none => false) then (fs, .error "Validation: summary")
  else if (match keywords? with
    | some ks => decide (10 < ks.length)
    | none => false) then (fs, .error "Validation: keywords")
  else if content? = none ∧ summary? = none ∧ keywords? = none then
    (fs, .error "Validation: at least one of content, summary, or keywords")
  else
    match repoGet db id with
    | none => (fs, .error "Memory not found")
    | some (m, _) =>
      let fs1 := match content? with
        | some c => if c ≠ "" then fsWrite fs m.file_path c else fs
        | none => fs
      match repoUpdate db id summary? (keywords?.map normalizeKeywords) now with
      | .error e => (fs1, .error e)
      | .ok (ok, db1) =>
        if ok then
          match repoGet db1 id with
          | some (m1, _) => (fs1, .ok (db1, m1.file_path))
          | none => (fs1, .error "Update failed")
        else (fs1, .error "Update failed")

/-- One entry of the search tool response. -/
structure SearchHit where
  file_path : String
  summary : String
  read : ReadResult
deriving DecidableEq

/-- Search tool response. -/
structure SearchResponse where
  results : List SearchHit
  total_found : Nat
deriving DecidableEq

/-- searchMemories (src/index.ts): run the search service, truncate the
ranked rows to `limit`, attach the capped file contents. -/
def searchMemories (fs : Fs) (db : DB) (bm25fn : ℚ → ℚ → Nat → ℚ)
    (query : String) (keywords : List String) (limit : Nat)
    (summaryWeight keywordWeight lambda : ℚ) : Except String SearchResponse :=
  match searchRun db bm25fn query keywords limit summaryWeight keywordWeight
    lambda with
  | .error e => .error e
  | .ok results =>
    .ok { results := (results.take limit).map (fun r =>
            ⟨r.file_path, r.summary, readLimited fs r.file_path 1048576⟩),
          total_found := results.length }

/-- Pagination metadata of the list tool. -/
structure Pagination where
  total : Nat
  limit : Nat
  offset : Nat
  has_more : Bool
deriving DecidableEq

/-- List tool response. -/
structure ListResponse where
  memories : List (MemRow × List String)
  pagination : Pagination
deriving DecidableEq

/-- The TypeError message raised by `m.keywords.split(', ')` in the
list tool when `m.keywords` is the array `MemoryRepository.list`
already produced. -/
def jsSplitErr : String := "TypeError: m.keywords.split is not a function"

/-- JavaScript truthiness of an Array value: every array object,
including the empty array, is truthy. -/
def jsTruthyArr (_a : List String) : Bool := true

/-- JavaScript `x.split(sep)` where `x` holds an Array: `Array.prototype`
has no `split` method, so the call throws a TypeError regardless of the
array's contents. -/
def jsArraySplit (_a : List String) (_sep : String) :
    Except String (List String) :=
  .error jsSplitErr

/-- The list tool's per-row re-mapping (src/index.ts listMemories):
`{ ...m, keywords: m.keywords ? m.keywords.split(', ') : [] }` applied
to a row whose `keywords` field is already the array produced by
`MemoryRepository.list`. -/
def listToolRow (m : MemRow × List String) :
    Except String (MemRow × List String) :=
  if jsTruthyArr m.2 then
    (jsArraySplit m.2 ", ").map (fun ks => (m.1, ks))
  else
    .ok (m.1, [])

/-- `memories.map(...)` over the page, with a thrown exception aborting
the whole call (the first throwing row wins). -/
def mapToolRows : List (MemRow × List String) →
    Except String (List (MemRow × List String))
  | [] => .ok []
  | m :: rest => do
    let r ← listToolRow m
    let rs ← mapToolRows rest
    pure (r :: rs)

/-- listMemories (src/index.ts): validated page re-mapped row by row
through the `keywords` re-split, plus pagination metadata with
`has_more = offset + limit < total`. -/
def listMemories (db : DB) (limit offset : Nat) : Except String ListResponse :=
  if limit = 0 || 100 < limit then .error "Validation: limit"
  else
    (mapToolRows (repoList db limit offset)).map (fun page =>
      { memories := page,
        pagination := ⟨repoCount db, limit, offset,
          decide (offset + limit < repoCount db)⟩ })

/-- Node `path.resolve` (POSIX, lexical): make the path absolute
against `cwd` and normalize `.`, `..` and empty segments. -/
def resolvePath (cwd p : String) : String :=
  let raw := if "/".data.isPrefixOf p.data then p else cwd ++ "/" ++ p
  let segs := ((splitByPred (fun c => c = '/') raw.data).map String.mk).foldl
    (fun acc seg =>
    if seg = "" || seg = "." then acc
    else if seg = ".." then acc.dropLast
    else acc ++ [seg]) []
  "/" ++ strJoin "/" segs

/-- readFile (src/index.ts): reject when the lower-cased resolved target
does not start with the lower-cased resolved base directory plus the
separator, otherwise do a capped read of the resolved target. -/
def readFileTool (fs : Fs) (baseContentDir cwd filePath : String) :
    Except String ReadResult :=
  let resolvedBase := resolvePath cwd baseContentDir ++ "/"
  let resolvedTarget := resolvePath cwd filePath
  if (jsToLower resolvedBase).data.isPrefixOf (jsToLower resolvedTarget).data then
    .ok (readLimited fs resolvedTarget 1048576)
  else
    .error "File path outside content directory"

/-! ## Predicates used by the statements -/

/-- The keyword-list separator the repository reads back with. -/
def commaSpace : List Char := [',', ' ']

/-- No occurrence of the two-character separator `", "` anywhere in the
character list. -/
def occFree : List Char → Bool
  | [] => true
  | [_] => true
  | c :: d :: rest => !(c == ',' && d == ' ') && occFree (d :: rest)

/-- The stored keyword values of one memory, in table order. -/
def storedKw (db : DB) (id : Nat) : List String :=
  (db.keywords.filter (fun e => e.1 == id)).map (·.2)

/-- The boost-keyword hit count as the specification words it: the
number of distinct boost keywords that, lower-cased, occur among the
memory's stored keywords. -/
def matchedCountSpec (db : DB) (boost : List String) (id : Nat) : Nat :=
  ((boost.map jsToLower).dedup.filter (fun b => b ∈ storedKw db id)).length

/-- Structural invariants the SQLite schema enforces on reachable
states: the composite primary key of `keywords`, the primary key of
`memories`, the enforced foreign key, and the AUTOINCREMENT bound. -/
def DB.WF (db : DB) : Prop :=
  db.keywords.Nodup ∧
  (db.memories.map MemRow.id).Nodup ∧
  (∀ e ∈ db.keywords, ∃ m ∈ db.memories, m.id = e.1) ∧
  (∀ m ∈ db.memories, m.id < db.nextId)

/-! ## Concrete scenario states referenced by the evaluation theorems -/

/-- Database after inserting one memory with summary "alpha topic". -/
def dbC2a : DB :=
  match repoInsert DB.empty "p1" "alpha topic" [] 5 with
  | .ok (d, _) => d
  | .error _ => DB.empty

/-- State of `dbC2a` after updating the summary to "beta topic". -/
def dbC2b : DB :=
  match repoUpdate dbC2a 1 (some "beta topic") none 9 with
  | .ok (_, d) => d
  | .error _ => DB.empty

/-- Full insert-tool call: content "hello", summary "alpha topic", one
keyword "foo", into an empty store. -/
def insC3 : Fs × Except String InsertOk :=
  insertMemory "/data" fsEmpty DB.empty "hello" "alpha topic" ["foo"] ⟨2025, 0, 2⟩ 5

def fsC3 : Fs := insC3.1

def dbC3a : DB :=
  match insC3.2 with
  | .ok o => o.db
  | .error _ => DB.empty

def pathC3 : String :=
  match insC3.2 with
  | .ok o => o.file_path
  | .error _ => ""

/-- State of `dbC3a` after deleting memory 1. -/
def dbC3b : DB := (repoDelete dbC3a 1).2

/-- Full insert-tool call whose single keyword normalizes to "a, b",
which contains the repository read-back separator. -/
def insC4 : Fs × Except String InsertOk :=
  insertMemory "/data" fsEmpty DB.empty "c" "s" ["A, B"] ⟨2025, 0, 2⟩ 1

def dbC4 : DB :=
  match insC4.2 with
  | .ok o => o.db
  | .error _ => DB.empty

/-- Database after inserting a memory with keyword "k" at time 5. -/
def dbC7a : DB :=
  match repoInsert DB.empty "p" "s" ["k"] 5 with
  | .ok (d, _) => d
  | .error _ => DB.empty

/-- State of `dbC7a` after a keyword-only update at time 9. -/
def dbC7b : DB :=
  match repoUpdate dbC7a 1 none (some ["x"]) 9 with
  | .ok (_, d) => d
  | .error _ => DB.empty

/-- State of `dbC7a` after a summary-only update at time 9. -/
def dbC7c : DB :=
  match repoUpdate dbC7a 1 (some "s2") none 9 with
  | .ok (_, d) => d
  | .error _ => DB.empty

/-- Three memories with distinct creation times 1, 2, 3. -/
def dbList3 : DB :=
  match repoInsert DB.empty "p1" "s1" [] 1 with
  | .ok (d1, _) =>
    match repoInsert d1 "p2" "s2" [] 2 with
    | .ok (d2, _) =>
      match repoInsert d2 "p3" "s3" [] 3 with
      | .ok (d3, _) => d3
      | .error _ => DB.empty
    | .error _ => DB.empty
  | .error _ => DB.empty

/-- Two memories matching "alpha", one carrying the boosted keyword. -/
def dbSearch : DB :=
  match repoInsert DB.empty "p1" "alpha one" ["boost"] 1 with
  | .ok (d1, _) =>
    match repoInsert d1 "p2" "alpha two" ["other"] 2 with
    | .ok (d2, _) => d2
    | .error _ => DB.empty
  | .error _ => DB.empty

/-- A file system holding a small readable file, an oversized readable
file (relative to cap 5), and a file whose read is denied. -/
def fsC9 : Fs :=
  [("/a", .ok "hi"), ("/big", .ok "toolong"), ("/locked", .denied 3 "EACCES")]

/-- Numeric value of a decimal digit character. -/
def digitVal (c : Char) : Nat := c.toNat - 48

/-- Value of a decimal digit string, most significant digit first. -/
def valD (l : List Char) : Nat := l.foldl (fun a c => 10 * a + digitVal c) 0

/-- The file system after storing one note on 2025-01-02 into an empty
store: it holds exactly `/data/2025/01/02/note.md`. -/
def fsC8 : Fs := (saveDated "/data" fsEmpty "note.md" "c1" ⟨2025, 0, 2⟩).2

/-! # Theorems -/

/-- C9: the capped read reports a missing file as plain non-existence
with no marker of any kind, an oversized file as existent with its size
and a placeholder message computed from the size alone (never the file
bytes), a small readable file with its full content, and a stat-able
but unreadable file with a distinct error marker in `file_contents`,
which a merely missing file never carries. -/
theorem readLimited_cases (fs : Fs) (path : String) (limitBytes : Nat) :
    (fsFind fs path = none → readLimited fs path limitBytes = ⟨false, none, none⟩) ∧
    (∀ c, fsFind fs path = some (.ok c) → limitBytes < c.utf8ByteSize →
      readLimited fs path limitBytes =
        ⟨true, some c.utf8ByteSize, some (tooLargeMsg c.utf8ByteSize)⟩) ∧
    (∀ c, fsFind fs path = some (.ok c) → c.utf8ByteSize ≤ limitBytes →
      readLimited fs path limitBytes = ⟨true, some c.utf8ByteSize, some c⟩) ∧
    (∀ n emsg, fsFind fs path = some (.denied n emsg) → n ≤ limitBytes →
      readLimited fs path limitBytes = ⟨false, none, some (readErrMsg emsg)⟩) ∧
    (∀ n emsg, fsFind fs path = some (.denied n emsg) → limitBytes < n →
      readLimited fs path limitBytes = ⟨true, some n, some (tooLargeMsg n)⟩) ∧
    (∀ emsg, (⟨false, none, some (readErrMsg emsg)⟩ : ReadResult) ≠
      ⟨false, none, none⟩) := by
  refine ⟨fun h => ?_, fun c h hs => ?_, fun c h hs => ?_,
    fun n emsg h hs => ?_, fun n emsg h hs => ?_, fun emsg => by simp⟩
  · simp [readLimited, h]
  · simp [readLimited, h, hs]
  · simp [readLimited, h, Nat.not_lt.mpr hs]
  · simp [readLimited, h, Nat.not_lt.mpr hs]
  · simp [readLimited, h, hs]

/-- Witness for `readLimited_cases` on a concrete file system with cap
5: a missing path, an oversized file, a small file, a denied small
file, and a denied oversized file. -/
theorem readLimited_cases_witness :
    readLimited fsC9 "/missing" 5 = ⟨false, none, none⟩ ∧
    readLimited fsC9 "/big" 5 = ⟨true, some 7, some (tooLargeMsg 7)⟩ ∧
    readLimited fsC9 "/a" 5 = ⟨true, some 2, some "hi"⟩ ∧
    readLimited fsC9 "/locked" 5 = ⟨false, none, some (readErrMsg "EACCES")⟩ ∧
    readLimited fsC9 "/locked" 2 = ⟨true, some 3, some (tooLargeMsg 3)⟩ :=
  ⟨(readLimited_cases fsC9 "/missing" 5).1 (by decide),
   (readLimited_cases fsC9 "/big" 5).2.1 "toolong" (by decide) (by decide),
   (readLimited_cases fsC9 "/a" 5).2.2.1 "hi" (by decide) (by decide),
   (readLimited_cases fsC9 "/locked" 5).2.2.2.1 3 "EACCES" (by decide) (by decide),
   (readLimited_cases fsC9 "/locked" 2).2.2.2.2.1 3 "EACCES" (by decide) (by decide)⟩

/-- C10 (amended): the boundary check of the raw-read tool is exact up
to ASCII case folding: a request is rejected precisely when the
case-folded resolution of the path does not start with the case-folded
resolved content root plus separator, and an accepted request reads
exactly the resolved target. -/
theorem readFile_boundary (fs : Fs) (base cwd p : String) :
    ((jsToLower (resolvePath cwd base ++ "/")).data.isPrefixOf
        (jsToLower (resolvePath cwd p)).data = true →
      readFileTool fs base cwd p =
        .ok (readLimited fs (resolvePath cwd p) 1048576)) ∧
    ((jsToLower (resolvePath cwd base ++ "/")).data.isPrefixOf
        (jsToLower (resolvePath cwd p)).data = false →
      readFileTool fs base cwd p =
        .error "File path outside content directory") := by
  constructor <;> intro h <;> simp [readFileTool, h]

/-- Witness for `readFile_boundary`: a path inside the root is read, a
path outside it is rejected. -/
theorem readFile_boundary_witness :
    readFileTool [] "./data" "/srv" "/srv/data/x.md" =
      .ok (readLimited [] "/srv/data/x.md" 1048576) ∧
    readFileTool [] "./data" "/srv" "/etc/passwd" =
      .error "File path outside content directory" := by
  constructor
  · have h := (readFile_boundary [] "./data" "/srv" "/srv/data/x.md").1 (by decide)
    have he : resolvePath "/srv" "/srv/data/x.md" = "/srv/data/x.md" := by decide
    rw [he] at h
    exact h
  · exact (readFile_boundary [] "./data" "/srv" "/etc/passwd").2 (by decide)

/-- C10 (counterexample): with content root `./data` resolved against
cwd `/srv`, the request for `/srv/DATA/secret` resolves to a path that
is not inside `/srv/data/` (paths on a case-sensitive file system are
exact strings) yet the tool reads it, because its comparison folds
case. -/
theorem readFile_case_escape :
    readFileTool [("/srv/DATA/secret", FileData.ok "top")] "./data" "/srv"
        "/srv/DATA/secret" = .ok ⟨true, some 3, some "top"⟩ ∧
    resolvePath "/srv" "/srv/DATA/secret" = "/srv/DATA/secret" ∧
    resolvePath "/srv" "./data" = "/srv/data" ∧
    "/srv/data/".data.isPrefixOf "/srv/DATA/secret".data = false := by decide

/-- C2 (evaluation at the failing input): after inserting a memory with
summary "alpha topic" and committing an update of its summary to
"beta topic", the live row still matches the query term "alpha" — a
term absent from its current summary — and the index holds two
documents for the row instead of exactly one; the triggers' value-less
FTS5 `'delete'` never removed the pre-update document. -/
theorem fts_stale_after_update :
    repoInsert DB.empty "p1" "alpha topic" [] 5 = .ok (dbC2a, 1) ∧
    repoUpdate dbC2a 1 (some "beta topic") none 9 = .ok (true, dbC2b) ∧
    summaryOf dbC2b 1 = some "beta topic" ∧
    "alpha" ∉ tokensOf "beta topic" ∧
    ftsMatch dbC2b "alpha" 1 = true ∧
    (stage1 dbC2b (fun _ _ _ => 0) "alpha" 1 2 10).map (fun p => p.1.id) = [1] ∧
    (dbC2b.fts.filter (fun d => d.rowid == 1)).length = 2 := by decide

/-- C3 (evaluation at the failing input): deleting a stored memory
returns true, removes the row and (by the enforced cascade) its keyword
rows, makes a subsequent get report not-found, leaves the blob file
readable at its former path, and returns false for an unknown id — but
the lexical index still carries the deleted row's postings ("foo",
"alpha" still hit rowid 1), because the delete trigger's value-less
FTS5 `'delete'` removed nothing; only the join against live memory rows
hides the entry from search results. -/
theorem delete_keeps_postings :
    insC3.2 = .ok ⟨dbC3a, 1, pathC3⟩ ∧
    pathC3 = "/data/2025/01/02/alpha-topic.md" ∧
    repoDelete dbC3a 1 = (true, dbC3b) ∧
    dbC3b.memories = [] ∧
    dbC3b.keywords = [] ∧
    repoGet dbC3b 1 = none ∧
    readLimited fsC3 pathC3 1048576 = ⟨true, some 5, some "hello"⟩ ∧
    repoDelete dbC3a 2 = (false, dbC3a) ∧
    ftsRowHasTerm dbC3b 1 "foo" = true ∧
    ftsRowHasTerm dbC3b 1 "alpha" = true ∧
    dbC3b.fts ≠ [] ∧
    stage1 dbC3b (fun _ _ _ => 0) "alpha" 1 2 10 = [] := by decide

/-! ## Repository-level helper lemmas -/

theorem delAux_memories (id : Nat) : ∀ (ks : List String) (db : DB),
    (deleteKeywordRowsAux db id ks).memories = db.memories := by
  intro ks
  induction ks with
  | nil => intro db; rfl
  | cons k ks ih =>
    intro db
    rw [deleteKeywordRowsAux, ih]
    rfl

theorem delAux_nextId (id : Nat) : ∀ (ks : List String) (db : DB),
    (deleteKeywordRowsAux db id ks).nextId = db.nextId := by
  intro ks
  induction ks with
  | nil => intro db; rfl
  | cons k ks ih =>
    intro db
    rw [deleteKeywordRowsAux, ih]
    rfl

theorem delAux_keywords (id : Nat) : ∀ (ks : List String) (db : DB),
    (deleteKeywordRowsAux db id ks).keywords =
      db.keywords.filter (fun e => !(e.1 == id && ks.contains e.2)) := by
  intro ks
  induction ks with
  | nil =>
    intro db
    show db.keywords = _
    rw [List.filter_congr (fun e _ => ?_), List.filter_true]
    simp
  | cons k ks ih =>
    intro db
    rw [deleteKeywordRowsAux, ih]
    show (db.keywords.filter
      (fun e => !(e.1 == id && e.2 == k))).filter
        (fun e => !(e.1 == id && ks.contains e.2)) = _
    rw [List.filter_filter]
    refine List.filter_congr (fun e _ => ?_)
    rw [List.contains_cons]
    cases h1 : (e.1 == id) <;> cases h2 : (e.2 == k) <;>
      cases h3 : ks.contains e.2 <;> rfl

theorem memFind_eq_of_memories {db db' : DB} (id : Nat)
    (h : db'.memories = db.memories) : memFind db' id = memFind db id := by
  unfold memFind
  rw [h]

/-- Membership in the sorted keyword list is membership among the
stored keyword values. -/
theorem kwSorted_mem {db : DB} {id : Nat} {a : String} :
    a ∈ kwSorted db id ↔ a ∈ storedKw db id :=
  (List.perm_insertionSort _ _).mem_iff

theorem deleteKeywordRows_keywords (db : DB) (id : Nat) :
    (deleteKeywordRows db id).keywords =
      db.keywords.filter (fun e => !(e.1 == id)) := by
  rw [deleteKeywordRows, delAux_keywords]
  refine List.filter_congr (fun e he => ?_)
  cases h1 : (e.1 == id)
  · simp
  · have hmem : e.2 ∈ kwSorted db id := by
      rw [kwSorted_mem]
      refine List.mem_map.mpr ⟨e, List.mem_filter.mpr ⟨he, h1⟩, rfl⟩
    rw [show (kwSorted db id).contains e.2 = true from
      List.elem_eq_true_of_mem hmem]
    rfl

theorem insertKeywordRow_ok {db : DB} {id : Nat} {k : String} {db' : DB}
    (h : insertKeywordRow db id k = .ok db') :
    db'.memories = db.memories ∧ db'.nextId = db.nextId ∧
    db'.keywords = db.keywords ++ [(id, k)] := by
  unfold insertKeywordRow at h
  split at h
  · exact Except.noConfusion h
  · split at h
    · exact Except.noConfusion h
    · injection h with h
      subst h
      exact ⟨rfl, rfl, rfl⟩

theorem foldl_insertKw_ok {id : Nat} : ∀ (ks : List String) (d d' : DB),
    ks.foldlM (fun a k => insertKeywordRow a id k) d = .ok d' →
    d'.memories = d.memories ∧ d'.nextId = d.nextId ∧
    d'.keywords = d.keywords ++ ks.map (fun k => (id, k)) := by
  intro ks
  induction ks with
  | nil =>
    intro d d' h
    injection h with h
    subst h
    simp
  | cons k ks ih =>
    intro d d' h
    rw [List.foldlM_cons] at h
    cases hstep : insertKeywordRow d id k with
    | error e => rw [hstep] at h; exact Except.noConfusion h
    | ok d1 =>
      rw [hstep] at h
      replace h : ks.foldlM (fun a k => insertKeywordRow a id k) d1 = .ok d' := h
      obtain ⟨h1, h2, h3⟩ := insertKeywordRow_ok hstep
      obtain ⟨g1, g2, g3⟩ := ih d1 d' h
      refine ⟨g1.trans h1, g2.trans h2, ?_⟩
      rw [g3, h3]
      simp

theorem sqlUpdateSummary_keywords (db : DB) (id : Nat) (s : String) (now : Nat) :
    (sqlUpdateSummary db id s now).keywords = db.keywords := by
  unfold sqlUpdateSummary
  split <;> rfl

theorem find?_update_map (l : List MemRow) (id : Nat) (f : MemRow → MemRow)
    (hf : ∀ m, (f m).id = m.id) :
    (l.map (fun m => if m.id == id then f m else m)).find? (fun m => m.id == id) =
      (l.find? (fun m => m.id == id)).map f := by
  induction l with
  | nil => rfl
  | cons m l ih =>
    rw [List.map_cons, List.find?_cons, List.find?_cons]
    by_cases hm : m.id = id
    · have hb : (m.id == id) = true := by simp [hm]
      have hb2 : ((f m).id == id) = true := by simp [hf, hm]
      rw [show (if (m.id == id) = true then f m else m) = f m from if_pos hb,
        hb2, hb]
      rfl
    · have hb : (m.id == id) = false := by simp [hm]
      rw [show (if (m.id == id) = true then f m else m) = m from
        if_neg (by simp [hb]), hb, ih]

theorem sqlUpdateSummary_memories (db : DB) (id : Nat) (s : String) (now : Nat) :
    (sqlUpdateSummary db id s now).memories =
      match memFind db id with
      | none => db.memories
      | some _ => db.memories.map (fun m =>
          if m.id == id then { m with summary := s, created_at := now } else m) := by
  unfold sqlUpdateSummary
  cases memFind db id <;> rfl

theorem memFind_sqlUpdateSummary (db : DB) (id : Nat) (s : String) (now : Nat) :
    memFind (sqlUpdateSummary db id s now) id =
      (memFind db id).map (fun m => { m with summary := s, created_at := now }) := by
  show (sqlUpdateSummary db id s now).memories.find? (fun m => m.id == id) = _
  rw [sqlUpdateSummary_memories]
  cases h : memFind db id with
  | none => exact h
  | some m =>
    show List.find? (fun m => m.id == id)
      (db.memories.map (fun m =>
        if m.id == id then { m with summary := s, created_at := now } else m)) = _
    rw [find?_update_map db.memories id
        (fun m => { m with summary := s, created_at := now }) (fun _ => rfl),
      show db.memories.find? (fun m => m.id == id) = some m from h]

/-- C7 (amended): the created_at column is refreshed by summary edits —
after a successful update supplying a non-empty summary the stored row
carries the new summary and the update timestamp — while an update
that touches only the keywords leaves every memory row, in particular
its created_at, unchanged. -/
theorem update_created_at (db : DB) (id : Nat) (s : String) (ks : List String)
    (ks? : Option (List String)) (now : Nat) :
    (∀ b db', repoUpdate db id none (some ks) now = .ok (b, db') →
      db'.memories = db.memories) ∧
    (s ≠ "" → ∀ b db', repoUpdate db id (some s) ks? now = .ok (b, db') →
      memFind db' id =
        (memFind db id).map (fun m => { m with summary := s, created_at := now })) := by
  constructor
  · intro b db' h
    unfold repoUpdate at h
    dsimp only at h
    cases hf : ks.foldlM (fun a k => insertKeywordRow a id k)
        (deleteKeywordRows db id) with
    | error e =>
      rw [hf] at h
      exact Except.noConfusion h
    | ok d2 =>
      rw [hf] at h
      replace h : Except.ok ((memFind d2 id).isSome, d2) = .ok (b, db') := h
      injection h with h
      injection h with hb hd
      subst hd
      exact ((foldl_insertKw_ok ks _ _ hf).1).trans (delAux_memories id _ db)
  · intro hs b db' h
    unfold repoUpdate at h
    dsimp only at h
    rw [if_neg hs] at h
    cases ks? with
    | none =>
      replace h : Except.ok
        ((memFind (sqlUpdateSummary db id s now) id).isSome,
          sqlUpdateSummary db id s now) = .ok (b, db') := h
      injection h with h
      injection h with hb hd
      subst hd
      exact memFind_sqlUpdateSummary db id s now
    | some ks2 =>
      dsimp only at h
      cases hf : ks2.foldlM (fun a k => insertKeywordRow a id k)
          (deleteKeywordRows (sqlUpdateSummary db id s now) id) with
      | error e =>
        rw [hf] at h
        exact Except.noConfusion h
      | ok d2 =>
        rw [hf] at h
        replace h : Except.ok ((memFind d2 id).isSome, d2) = .ok (b, db') := h
        injection h with h
        injection h with hb hd
        subst hd
        have hmm : d2.memories = (sqlUpdateSummary db id s now).memories :=
          ((foldl_insertKw_ok ks2 _ _ hf).1).trans (delAux_memories id _ _)
        rw [memFind_eq_of_memories id hmm]
        exact memFind_sqlUpdateSummary db id s now

/-- Witness for `update_created_at`: a keyword-only update of the
concrete store leaves the rows untouched, and a summary update stamps
summary and created_at. -/
theorem update_created_at_witness :
    dbC7b.memories = dbC7a.memories ∧
    memFind dbC7c 1 = (memFind dbC7a 1).map
      (fun m => { m with summary := "s2", created_at := 9 }) :=
  ⟨(update_created_at dbC7a 1 "x" ["x"] none 9).1 true dbC7b (by decide),
   (update_created_at dbC7a 1 "s2" [] none 9).2 (by decide) true dbC7c (by decide)⟩

/-- C7 (counterexample): an update that changes only the keywords does
not refresh created_at: after inserting at time 5 and replacing the
keywords at time 9, the row still carries created_at 5.  Only the
summary branch of the repository update touches created_at. -/
theorem keyword_update_keeps_created_at :
    repoInsert DB.empty "p" "s" ["k"] 5 = .ok (dbC7a, 1) ∧
    repoUpdate dbC7a 1 none (some ["x"]) 9 = .ok (true, dbC7b) ∧
    (memFind dbC7b 1).map MemRow.created_at = some 5 ∧
    (5 : Nat) ≠ 9 := by decide

/-- C6: on an existing id, an update passing an explicitly empty
keyword list reports success and deletes exactly that id's keyword
associations (other rows and all memory rows are untouched), while an
update that omits the keywords argument leaves the stored keyword
table unchanged; the two cases are distinguished structurally. -/
theorem update_keywords_semantics (db : DB) (id : Nat) (m : MemRow)
    (hm : memFind db id = some m) (now : Nat) :
    (∃ db', repoUpdate db id none (some []) now = .ok (true, db') ∧
      db'.keywords = db.keywords.filter (fun e => !(e.1 == id)) ∧
      storedKw db' id = [] ∧
      db'.memories = db.memories) ∧
    (∀ s? b db', repoUpdate db id s? none now = .ok (b, db') →
      db'.keywords = db.keywords) := by
  constructor
  · refine ⟨deleteKeywordRows db id, ?_, deleteKeywordRows_keywords db id, ?_, ?_⟩
    · show Except.ok ((memFind (deleteKeywordRows db id) id).isSome,
        deleteKeywordRows db id) = _
      have hme : (deleteKeywordRows db id).memories = db.memories :=
        delAux_memories id _ db
      rw [memFind_eq_of_memories id hme, hm]
      rfl
    · unfold storedKw
      rw [deleteKeywordRows_keywords, List.filter_filter]
      rw [show List.filter (fun a => a.1 == id && !(a.1 == id)) db.keywords = []
        from List.filter_eq_nil_iff.mpr
          (fun e he => by cases h1 : (e.1 == id) <;> simp [h1])]
      rfl
    · exact delAux_memories id _ db
  · intro s? b db' h
    unfold repoUpdate at h
    cases s? with
    | none =>
      dsimp only at h
      replace h : Except.ok ((memFind db id).isSome, db) = .ok (b, db') := h
      injection h with h
      injection h with hb hd
      subst hd
      rfl
    | some s =>
      dsimp only at h
      by_cases hs : s = ""
      · rw [if_pos hs] at h
        replace h : Except.ok ((memFind db id).isSome, db) = .ok (b, db') := h
        injection h with h
        injection h with hb hd
        subst hd
        rfl
      · rw [if_neg hs] at h
        replace h : Except.ok
          ((memFind (sqlUpdateSummary db id s now) id).isSome,
            sqlUpdateSummary db id s now) = .ok (b, db') := h
        injection h with h
        injection h with hb hd
        subst hd
        exact sqlUpdateSummary_keywords db id s now

/-- Witness for `update_keywords_semantics` at the concrete two-keyword
store: clearing empties the association table for the id, omitting
leaves it intact. -/
theorem update_keywords_semantics_witness :
    (∃ db', repoUpdate dbC7a 1 none (some []) 9 = .ok (true, db') ∧
      db'.keywords = dbC7a.keywords.filter (fun e => !(e.1 == 1)) ∧
      storedKw db' 1 = [] ∧
      db'.memories = dbC7a.memories) ∧
    dbC7c.keywords = dbC7a.keywords :=
  ⟨(update_keywords_semantics dbC7a 1 ⟨1, "p", "s", 5⟩ (by decide) 9).1,
   (update_keywords_semantics dbC7a 1 ⟨1, "p", "s", 5⟩ (by decide) 9).2
     (some "s2") true dbC7c (by decide)⟩

theorem mapToolRows_err : ∀ (l : List (MemRow × List String)), l ≠ [] →
    mapToolRows l = .error jsSplitErr := by
  intro l hl
  cases l with
  | nil => exact absurd rfl hl
  | cons m rest => rfl

/-- C5: the repository layer produces exactly the claimed pages — a
creation-descending sorted permutation of the stored rows, windowed by
offset and limit, each row with its keyword list — and the `has_more`
arithmetic is as claimed; but the list tool then calls
`keywords.split(', ')` on the `keywords` field that
`MemoryRepository.list` already converted to an array, and an array
(always truthy, with no `split` method) makes every row of the page
throw a TypeError, so the tool errors on every valid call whose page is
non-empty; only an empty page is ever returned, with its metadata.  In
particular, the claim's own three-record scenario errors at offsets 0,
1 and 2. -/
theorem list_tool_type_error :
    (∀ (db : DB) (limit offset : Nat), ∃ s,
      s.Perm db.memories ∧ List.Sorted createdDesc s ∧
      repoList db limit offset = ((s.drop offset).take limit).map
        (fun m => (m, readKwList db m.id))) ∧
    (∀ (db : DB) (limit offset : Nat),
      (decide (limit = 0) || decide (100 < limit)) = false →
      repoList db limit offset ≠ [] →
      listMemories db limit offset = .error jsSplitErr) ∧
    (∀ (db : DB) (limit offset : Nat),
      (decide (limit = 0) || decide (100 < limit)) = false →
      repoList db limit offset = [] →
      listMemories db limit offset = .ok ⟨[],
        ⟨repoCount db, limit, offset,
          decide (offset + limit < repoCount db)⟩⟩) ∧
    repoList dbList3 1 0 = [(⟨3, "p3", "s3", 3⟩, [])] ∧
    repoList dbList3 1 1 = [(⟨2, "p2", "s2", 2⟩, [])] ∧
    repoList dbList3 1 2 = [(⟨1, "p1", "s1", 1⟩, [])] ∧
    listMemories dbList3 1 0 = .error jsSplitErr ∧
    listMemories dbList3 1 1 = .error jsSplitErr ∧
    listMemories dbList3 1 2 = .error jsSplitErr ∧
    listMemories dbList3 1 3 = .ok ⟨[], ⟨3, 1, 3, false⟩⟩ := by
  refine ⟨?_, ?_, ?_, by decide, by decide, by decide, by decide, by decide,
    by decide, by decide⟩
  · intro db limit offset
    exact ⟨List.insertionSort createdDesc db.memories,
      List.perm_insertionSort _ _, List.sorted_insertionSort _ _, rfl⟩
  · intro db limit offset hval hne
    unfold listMemories
    rw [if_neg (by rw [hval]; exact Bool.false_ne_true),
      mapToolRows_err _ hne]
    rfl
  · intro db limit offset hval hemp
    unfold listMemories
    rw [if_neg (by rw [hval]; exact Bool.false_ne_true), hemp]
    rfl

/-- Witness for `list_tool_type_error`: the valid call limit 1, offset 0
against the three stored records satisfies the hypotheses of its
non-empty-page conjunct and indeed errors. -/
theorem list_tool_type_error_witness :
    (decide ((1 : Nat) = 0) || decide (100 < (1 : Nat))) = false ∧
    repoList dbList3 1 0 ≠ [] ∧
    listMemories dbList3 1 0 = .error jsSplitErr :=
  ⟨by decide, by decide,
   list_tool_type_error.2.1 dbList3 1 0 (by decide) (by decide)⟩

/-! ## Search pipeline lemmas -/

theorem ratOfNat_eq (n : Nat) : ratOfNat n = (n : ℚ) := by
  unfold ratOfNat
  rw [Rat.ofInt_eq_cast]
  rfl

theorem storedKw_nodup {db : DB} (hkw : db.keywords.Nodup) (id : Nat) :
    (storedKw db id).Nodup := by
  unfold storedKw
  refine (hkw.filter _).map_on ?_
  intro x hx y hy hxy
  have hx1 : (x.1 == id) = true := (List.mem_filter.mp hx).2
  have hy1 : (y.1 == id) = true := (List.mem_filter.mp hy).2
  have e1 : x.1 = id := by simpa using hx1
  have e2 : y.1 = id := by simpa using hy1
  exact Prod.ext (e1.trans e2.symm) hxy

/-- The correlated COUNT(DISTINCT …) of the SQL equals the count the
specification describes: the number of distinct lower-cased boost
keywords occurring among the memory's stored keywords. -/
theorem matchedCount_eq_spec (db : DB) (hkw : db.keywords.Nodup)
    (boost : List String) (id : Nat) :
    matchedCount db (boost.map jsToLower) id = matchedCountSpec db boost id := by
  unfold matchedCount matchedCountSpec
  have hA : (storedKw db id).Nodup := storedKw_nodup hkw id
  have h1 : ((storedKw db id).filter
      (fun k => (boost.map jsToLower).contains k)).Nodup := hA.filter _
  have h2 : ((boost.map jsToLower).dedup.filter
      (fun b => b ∈ storedKw db id)).Nodup := (List.nodup_dedup _).filter _
  show ((storedKw db id).filter
    (fun k => (boost.map jsToLower).contains k)).dedup.length = _
  rw [h1.dedup, ← List.toFinset_card_of_nodup h1, ← List.toFinset_card_of_nodup h2]
  congr 1
  ext x
  simp only [List.mem_toFinset, List.mem_filter, List.mem_dedup,
    List.elem_eq_mem, decide_eq_true_eq]
  tauto

/-- C1: with the composite key of the keywords table in force, every
search call succeeds on a non-degenerate sanitized query and satisfies
the staged contract: stage 1 retrieves at most 2×limit candidates in
ascending weighted-BM25 order; every returned row carries
matchedKeywordCount equal to the number of distinct case-insensitive
boost keywords among its stored keywords and
finalScore = bm25 − lambda·matchedKeywordCount; the rows are re-sorted
ascending by final score; the tool layer truncates to limit; and with
no boost keywords the count is 0 and the final score is exactly the
weighted relevance score. -/
theorem search_pipeline (fs : Fs) (db : DB) (bm25fn : ℚ → ℚ → Nat → ℚ)
    (query : String) (keywords : List String) (limit : Nat)
    (sw kw lambda : ℚ)
    (hkw : db.keywords.Nodup) (hq : sanitize query ≠ "") :
    ∃ res, searchRun db bm25fn query keywords limit sw kw lambda = .ok res ∧
      (stage1 db bm25fn (sanitize query) sw kw limit).length ≤ limit * 2 ∧
      List.Sorted bm25LE (stage1 db bm25fn (sanitize query) sw kw limit) ∧
      res.length = (stage1 db bm25fn (sanitize query) sw kw limit).length ∧
      List.Sorted finalLE res ∧
      (∀ r ∈ res, r.matched_keywords = matchedCountSpec db keywords r.id ∧
        r.final_score = r.bm25_score - lambda * (r.matched_keywords : ℚ)) ∧
      (keywords = [] → ∀ r ∈ res, r.matched_keywords = 0 ∧
        r.final_score = r.bm25_score) ∧
      (∀ resp, searchMemories fs db bm25fn query keywords limit sw kw lambda =
          .ok resp →
        resp.results = (res.take limit).map (fun r =>
          ⟨r.file_path, r.summary, readLimited fs r.file_path 1048576⟩) ∧
        resp.results.length ≤ limit ∧
        resp.total_found = res.length) := by
  have hok : searchRun db bm25fn query keywords limit sw kw lambda =
      .ok (List.insertionSort finalLE
        ((stage1 db bm25fn (sanitize query) sw kw limit).map (fun p =>
          let mk := matchedCount db (keywords.map jsToLower) p.1.id
          { id := p.1.id, file_path := p.1.file_path, summary := p.1.summary,
            created_at := p.1.created_at, bm25_score := p.2,
            matched_keywords := mk,
            final_score := p.2 - lambda * ratOfNat mk }))) := by
    unfold searchRun
    rw [if_neg hq]
  refine ⟨_, hok, List.length_take_le _ _,
    List.Pairwise.sublist (List.take_sublist _ _)
      (List.sorted_insertionSort bm25LE _), ?_,
    List.sorted_insertionSort _ _, ?_, ?_, ?_⟩
  · rw [(List.perm_insertionSort finalLE _).length_eq, List.length_map]
  · intro r hr
    obtain ⟨p, hp, rfl⟩ := List.mem_map.mp
      ((List.perm_insertionSort finalLE _).mem_iff.mp hr)
    exact ⟨matchedCount_eq_spec db hkw keywords p.1.id, by
      show _ - _ * ratOfNat _ = _ - _ * _
      rw [ratOfNat_eq]⟩
  · intro hk r hr
    subst hk
    obtain ⟨p, hp, rfl⟩ := List.mem_map.mp
      ((List.perm_insertionSort finalLE _).mem_iff.mp hr)
    have hz : matchedCount db ([].map jsToLower) p.1.id = 0 := by
      unfold matchedCount
      rw [show ((db.keywords.filter (fun e => e.1 == p.1.id)).map (·.2)).filter
          (fun k => (([] : List String).map jsToLower).contains k) = [] from
        List.filter_eq_nil_iff.mpr (fun a _ => by simp)]
      rfl
    refine ⟨hz, ?_⟩
    show _ - lambda * ratOfNat (matchedCount db ([].map jsToLower) p.1.id) = _
    rw [hz, ratOfNat_eq]
    push_cast
    ring
  · intro resp hresp
    unfold searchMemories at hresp
    rw [hok] at hresp
    replace hresp : Except.ok (SearchResponse.mk _ _) = .ok resp := hresp
    injection hresp with hresp
    subst hresp
    refine ⟨rfl, ?_, rfl⟩
    rw [List.length_map]
    exact List.length_take_le _ _

/-- Witness for `search_pipeline` on a concrete store: two memories
match "alpha"; with boost keyword "Boost" (stored keyword "boost",
lambda 1) the boosted row ranks first. -/
theorem search_pipeline_witness :
    (∃ res, searchRun dbSearch (fun _ _ _ => 0) "alpha" ["Boost"] 10 1 2 1 =
        .ok res ∧
      (stage1 dbSearch (fun _ _ _ => 0) (sanitize "alpha") 1 2 10).length ≤ 10 * 2 ∧
      List.Sorted bm25LE (stage1 dbSearch (fun _ _ _ => 0) (sanitize "alpha") 1 2 10) ∧
      res.length = (stage1 dbSearch (fun _ _ _ => 0) (sanitize "alpha") 1 2 10).length ∧
      List.Sorted finalLE res ∧
      (∀ r ∈ res, r.matched_keywords = matchedCountSpec dbSearch ["Boost"] r.id ∧
        r.final_score = r.bm25_score - 1 * (r.matched_keywords : ℚ)) ∧
      (["Boost"] = ([] : List String) → ∀ r ∈ res, r.matched_keywords = 0 ∧
        r.final_score = r.bm25_score) ∧
      (∀ resp, searchMemories fsEmpty dbSearch (fun _ _ _ => 0) "alpha" ["Boost"]
          10 1 2 1 = .ok resp →
        resp.results = (res.take 10).map (fun r =>
          ⟨r.file_path, r.summary, readLimited fsEmpty r.file_path 1048576⟩) ∧
        resp.results.length ≤ 10 ∧
        resp.total_found = res.length)) ∧
    (match searchRun dbSearch (fun _ _ _ => 0) "alpha" ["Boost"] 10 1 2 1 with
      | .ok rows => rows.map (fun r => (r.id, r.matched_keywords, r.final_score))
      | .error _ => []) = [(1, 1, -1), (2, 0, 0)] :=
  ⟨search_pipeline fsEmpty dbSearch (fun _ _ _ => 0) "alpha" ["Boost"] 10 1 2 1
    (by decide) (by decide), by decide⟩

/-! ## Split/join round trip for the keyword read-back -/

theorem occFree_tail {c : Char} {l : List Char} (h : occFree (c :: l) = true) :
    occFree l = true := by
  cases l with
  | nil => rfl
  | cons d rest =>
    simp only [occFree, Bool.and_eq_true] at h
    exact h.2

theorem splitCharsFuel_congr (sep : List Char) : ∀ (f1 : Nat) (l : List Char)
    (f2 : Nat), l.length ≤ f1 → l.length ≤ f2 →
    splitCharsFuel sep f1 l = splitCharsFuel sep f2 l := by
  intro f1
  induction f1 with
  | zero =>
    intro l f2 h1 _
    rw [List.length_eq_zero.mp (Nat.le_zero.mp h1)]
    cases f2 <;> rfl
  | succ f1 ih =>
    intro l f2 h1 h2
    cases l with
    | nil => cases f2 <;> rfl
    | cons c cs =>
      cases f2 with
      | zero => exact absurd h2 (by simp)
      | succ f2 =>
        rw [splitCharsFuel, splitCharsFuel]
        by_cases hc : sep ≠ [] ∧ sep.isPrefixOf (c :: cs) = true
        · rw [if_pos hc, if_pos hc]
          have hsep : 1 ≤ sep.length := List.length_pos.mpr hc.1
          have hd : ((c :: cs).drop sep.length).length ≤ f1 := by
            rw [List.length_drop]
            simp only [List.length_cons] at h1 ⊢
            omega
          have hd2 : ((c :: cs).drop sep.length).length ≤ f2 := by
            rw [List.length_drop]
            simp only [List.length_cons] at h2 ⊢
            omega
          rw [ih _ f2 hd hd2]
        · rw [if_neg hc, if_neg hc]
          have hcs : cs.length ≤ f1 := by
            simp only [List.length_cons] at h1
            omega
          have hcs2 : cs.length ≤ f2 := by
            simp only [List.length_cons] at h2
            omega
          rw [ih cs f2 hcs hcs2]

/-- A separator-free chunk splits to itself. -/
theorem splitChars_occFree : ∀ (x : List Char), occFree x = true →
    splitChars commaSpace x = [x] := by
  intro x
  induction x with
  | nil => intro _; rfl
  | cons c cs ih =>
    intro h
    have hnp : ¬ (commaSpace ≠ [] ∧ commaSpace.isPrefixOf (c :: cs) = true) := by
      rintro ⟨-, hpre⟩
      cases cs with
      | nil => simp [commaSpace, List.isPrefixOf] at hpre
      | cons d rest =>
        simp only [commaSpace, List.isPrefixOf, Bool.and_eq_true, beq_iff_eq]
          at hpre
        obtain ⟨rfl, rfl, -⟩ := hpre
        simp [occFree] at h
    show splitCharsFuel commaSpace (cs.length + 1) (c :: cs) = _
    rw [splitCharsFuel, if_neg hnp]
    have hcs : splitCharsFuel commaSpace cs.length cs = [cs] :=
      ih (occFree_tail h)
    rw [hcs]

/-- Splitting after a separator-free chunk followed by the separator
peels off exactly that chunk. -/
theorem splitChars_append : ∀ (x J : List Char), occFree x = true →
    splitChars commaSpace (x ++ commaSpace ++ J) = x :: splitChars commaSpace J := by
  intro x
  induction x with
  | nil =>
    intro J _
    show splitCharsFuel commaSpace (J.length + 1 + 1) (',' :: ' ' :: J) = _
    rw [splitCharsFuel,
      if_pos (⟨by simp [commaSpace], by simp [commaSpace, List.isPrefixOf]⟩ :
        commaSpace ≠ [] ∧ commaSpace.isPrefixOf (',' :: ' ' :: J) = true)]
    show ([] : List Char) ::
      splitCharsFuel commaSpace (J.length + 1) J = _
    rw [splitCharsFuel_congr commaSpace (J.length + 1) J J.length
      (Nat.le_succ _) (Nat.le_refl _)]
    rfl
  | cons c x' ih =>
    intro J h
    have hnp : ¬ (commaSpace ≠ [] ∧
        commaSpace.isPrefixOf (c :: (x' ++ commaSpace ++ J)) = true) := by
      rintro ⟨-, hpre⟩
      cases x' with
      | nil =>
        simp only [commaSpace, List.nil_append, List.cons_append,
          List.isPrefixOf, Bool.and_eq_true, beq_iff_eq] at hpre
        exact absurd hpre.2.1.symm (by decide)
      | cons d rest =>
        simp only [commaSpace, List.cons_append, List.isPrefixOf,
          Bool.and_eq_true, beq_iff_eq] at hpre
        obtain ⟨rfl, rfl, -⟩ := hpre
        simp [occFree] at h
    have hlen : (c :: (x' ++ commaSpace ++ J)).length =
        (x' ++ commaSpace ++ J).length + 1 := rfl
    show splitCharsFuel commaSpace ((x' ++ commaSpace ++ J).length + 1)
      (c :: (x' ++ commaSpace ++ J)) = _
    rw [splitCharsFuel, if_neg hnp]
    have hx' : splitCharsFuel commaSpace (x' ++ commaSpace ++ J).length
        (x' ++ commaSpace ++ J) = x' :: splitChars commaSpace J :=
      ih J (occFree_tail h)
    rw [hx']

/-- The round trip: joining separator-free chunks with the separator
and splitting again restores the chunks. -/
theorem splitChars_charJoin : ∀ (l : List (List Char)), l ≠ [] →
    (∀ x ∈ l, occFree x = true) →
    splitChars commaSpace (charJoin commaSpace l) = l := by
  intro l
  induction l with
  | nil => intro h _; exact absurd rfl h
  | cons x rest ih =>
    intro _ hf
    cases rest with
    | nil =>
      show splitChars commaSpace x = [x]
      exact splitChars_occFree x (hf x (List.mem_cons_self _ _))
    | cons y rest2 =>
      show splitChars commaSpace (x ++ commaSpace ++ charJoin commaSpace
        (y :: rest2)) = _
      rw [splitChars_append x _ (hf x (List.mem_cons_self _ _)),
        ih (by simp) (fun z hz => hf z (List.mem_cons_of_mem _ hz))]

/-- The repository read-back of the keyword list is the stored sorted
list whenever no stored keyword is empty or contains the separator. -/
theorem readKwList_eq (db : DB) (id : Nat)
    (h : ∀ k ∈ kwSorted db id, k ≠ "" ∧ occFree k.data = true) :
    readKwList db id = kwSorted db id := by
  unfold readKwList
  cases hk : kwSorted db id with
  | nil => rfl
  | cons k ks =>
    have hne : strJoin ", " (k :: ks) ≠ "" := by
      intro hcon
      have hdata : charJoin commaSpace ((k :: ks).map String.data) = [] :=
        congrArg String.data hcon
      cases ks with
      | nil =>
        have hkne : k ≠ "" := (h k (hk ▸ List.mem_cons_self _ _)).1
        exact hkne (String.ext hdata)
      | cons y rest =>
        rw [show charJoin commaSpace ((k :: y :: rest).map String.data) =
          k.data ++ commaSpace ++ charJoin commaSpace ((y :: rest).map
            String.data) from rfl] at hdata
        simp [commaSpace] at hdata
    rw [if_neg hne]
    show List.map String.mk (splitChars (", ".data)
      (strJoin ", " (k :: ks)).data) = _
    rw [show (", ").data = commaSpace from rfl,
      show (strJoin ", " (k :: ks)).data =
        charJoin commaSpace ((k :: ks).map String.data) from rfl,
      splitChars_charJoin _ (by simp) ?hocc]
    case hocc =>
      intro x hx
      obtain ⟨k', hk', rfl⟩ := List.mem_map.mp hx
      exact (h k' (hk ▸ hk')).2
    rw [List.map_map]
    show List.map (fun a : String => String.mk a.data) (k :: ks) = _
    exact (List.map_congr_left (fun a _ => rfl)).trans (List.map_id _)

theorem jsSetDedupFuel_subset : ∀ (fuel : Nat) (l : List String),
    jsSetDedupFuel fuel l ⊆ l := by
  intro fuel
  induction fuel with
  | zero =>
    intro l
    cases l <;> intro a ha <;> exact ha
  | succ fuel ih =>
    intro l
    cases l with
    | nil => intro a ha; exact ha
    | cons x xs =>
      intro a ha
      rcases List.mem_cons.mp ha with rfl | h2
      · exact List.mem_cons_self _ _
      · exact List.mem_cons_of_mem _ (List.mem_of_mem_filter (ih _ h2))

theorem normalize_mem {ks : List String} {k : String}
    (hk : k ∈ normalizeKeywords ks) : k ≠ "" := by
  unfold normalizeKeywords jsSetDedup at hk
  have h2 := jsSetDedupFuel_subset _ _ (List.mem_of_mem_take hk)
  simpa using (List.mem_filter.mp h2).2

/-! ## Insert/get round trip -/

theorem insertMemoriesRow_ok {db : DB} {path summary : String} {now : Nat}
    {db' : DB} {id : Nat}
    (h : insertMemoriesRow db path summary now = .ok (db', id)) :
    id = db.nextId ∧ db'.nextId = db.nextId + 1 ∧
    db'.memories = db.memories ++ [⟨db.nextId, path, summary, now⟩] ∧
    db'.keywords = db.keywords := by
  unfold insertMemoriesRow at h
  split at h
  · exact Except.noConfusion h
  · injection h with h
    injection h with h1 h2
    subst h1
    subst h2
    exact ⟨rfl, rfl, rfl, rfl⟩

theorem repoInsert_ok {db : DB} {path summary : String} {ks : List String}
    {now : Nat} {db' : DB} {id : Nat}
    (h : repoInsert db path summary ks now = .ok (db', id)) :
    id = db.nextId ∧ db'.nextId = db.nextId + 1 ∧
    db'.memories = db.memories ++ [⟨db.nextId, path, summary, now⟩] ∧
    db'.keywords = db.keywords ++ ks.map (fun k => (db.nextId, k)) := by
  unfold repoInsert at h
  cases h1 : insertMemoriesRow db path summary now with
  | error e => rw [h1] at h; exact Except.noConfusion h
  | ok pr =>
    obtain ⟨db1, id1⟩ := pr
    rw [h1] at h
    cases h2 : ks.foldlM (fun d k => insertKeywordRow d id1 k) db1 with
    | error e =>
      rw [show (Except.ok (db1, id1) >>= fun x =>
        match x with
        | (db1, id) => ks.foldlM (fun d k => insertKeywordRow d id k) db1 >>=
            fun db2 => pure (db2, id) : Except String (DB × Nat)) =
          (ks.foldlM (fun d k => insertKeywordRow d id1 k) db1 >>=
            fun db2 => pure (db2, id1)) from rfl, h2] at h
      exact Except.noConfusion h
    | ok db2 =>
      rw [show (Except.ok (db1, id1) >>= fun x =>
        match x with
        | (db1, id) => ks.foldlM (fun d k => insertKeywordRow d id k) db1 >>=
            fun db2 => pure (db2, id) : Except String (DB × Nat)) =
          (ks.foldlM (fun d k => insertKeywordRow d id1 k) db1 >>=
            fun db2 => pure (db2, id1)) from rfl, h2] at h
      replace h : Except.ok (db2, id1) = .ok (db', id) := h
      injection h with h
      injection h with ha hb
      subst ha
      subst hb
      obtain ⟨hid, hnext, hmem, hkw⟩ := insertMemoriesRow_ok h1
      obtain ⟨g1, g2, g3⟩ := foldl_insertKw_ok ks db1 db2 h2
      subst hid
      exact ⟨rfl, g2.trans hnext, g1.trans hmem, by rw [g3, hkw]⟩

theorem memFind_fresh {db : DB} (hlt : ∀ m ∈ db.memories, m.id < db.nextId)
    (row : MemRow) (hrow : row.id = db.nextId) :
    (db.memories ++ [row]).find? (fun m => m.id == db.nextId) = some row := by
  rw [List.find?_append]
  have hnone : db.memories.find? (fun m => m.id == db.nextId) = none :=
    List.find?_eq_none.mpr (fun m hm => by
      have := hlt m hm
      simp only [beq_iff_eq]
      omega)
  rw [hnone]
  simp [hrow]

theorem storedKw_insert {db : DB}
    (hfk : ∀ e ∈ db.keywords, ∃ m ∈ db.memories, m.id = e.1)
    (hlt : ∀ m ∈ db.memories, m.id < db.nextId) (ks : List String) :
    ((db.keywords ++ ks.map (fun k => (db.nextId, k))).filter
      (fun e => e.1 == db.nextId)).map (·.2) = ks := by
  rw [List.filter_append]
  have hleft : db.keywords.filter (fun e => e.1 == db.nextId) = [] :=
    List.filter_eq_nil_iff.mpr (fun e he => by
      obtain ⟨m, hm, hid⟩ := hfk e he
      have := hlt m hm
      simp only [beq_iff_eq]
      omega)
  have hright : (ks.map (fun k => (db.nextId, k))).filter
      (fun e => e.1 == db.nextId) = ks.map (fun k => (db.nextId, k)) :=
    List.filter_eq_self.mpr (fun e he => by
      obtain ⟨k, -, rfl⟩ := List.mem_map.mp he
      simp)
  rw [hleft, hright, List.nil_append, List.map_map]
  exact List.map_congr_left (fun a _ => rfl) |>.trans (List.map_id ks)

/-- C4 (amended): on a well-formed store, for every successful valid
insert whose normalized keywords are free of the read-back separator
", ", an immediate get returns a record with the reported id and
content path, the given summary, the insertion timestamp, and exactly
the normalized deduplicated keyword set (read back in sorted order, a
permutation of what was stored). -/
theorem insert_get_roundtrip (baseDir : String) (fs : Fs) (db : DB)
    (content summary : String) (keywords : List String) (date : JsDate)
    (now : Nat) (fs1 : Fs) (out : InsertOk)
    (hwf : db.WF)
    (hocc : ∀ k ∈ normalizeKeywords keywords, occFree k.data = true)
    (hins : insertMemory baseDir fs db content summary keywords date now =
      (fs1, .ok out)) :
    repoGet out.db out.id = some (⟨out.id, out.file_path, summary, now⟩,
      List.insertionSort (fun a b : String => a ≤ b)
        (normalizeKeywords keywords)) ∧
    (List.insertionSort (fun a b : String => a ≤ b)
      (normalizeKeywords keywords)).Perm (normalizeKeywords keywords) := by
  obtain ⟨hkN, hidN, hfk, hlt⟩ := hwf
  refine ⟨?_, List.perm_insertionSort _ _⟩
  unfold insertMemory at hins
  split at hins
  · exact absurd (congrArg Prod.snd hins) (by simp)
  split at hins
  · exact absurd (congrArg Prod.snd hins) (by simp)
  split at hins
  · exact absurd (congrArg Prod.snd hins) (by simp)
  dsimp only at hins
  rcases hsd : saveDated baseDir fs (slugOf summary ++ ".md") content date
    with ⟨stored, fsW⟩
  rw [hsd] at hins
  dsimp only at hins
  cases hri : repoInsert db stored.path summary (normalizeKeywords keywords)
      now with
  | error e =>
    rw [hri] at hins
    exact absurd (congrArg Prod.snd hins) (by simp)
  | ok pr =>
    obtain ⟨db1, newId⟩ := pr
    rw [hri] at hins
    have hout : Except.ok (⟨db1, newId, stored.path⟩ : InsertOk) = .ok out :=
      congrArg Prod.snd hins
    injection hout with hout
    subst hout
    obtain ⟨hid, hnext, hmem, hkws⟩ := repoInsert_ok hri
    subst hid
    have hfind : memFind db1 db.nextId =
        some ⟨db.nextId, stored.path, summary, now⟩ := by
      unfold memFind
      rw [hmem]
      exact memFind_fresh hlt _ rfl
    have hsk : storedKw db1 db.nextId = normalizeKeywords keywords := by
      unfold storedKw
      rw [hkws]
      exact storedKw_insert hfk hlt _
    have hksorted : kwSorted db1 db.nextId =
        List.insertionSort (fun a b : String => a ≤ b)
          (normalizeKeywords keywords) := by
      show List.insertionSort _ (storedKw db1 db.nextId) = _
      rw [hsk]
    have hread : readKwList db1 db.nextId = kwSorted db1 db.nextId := by
      refine readKwList_eq db1 db.nextId (fun k hk2 => ?_)
      rw [hksorted] at hk2
      have hk3 : k ∈ normalizeKeywords keywords :=
        (List.perm_insertionSort _ _).mem_iff.mp hk2
      exact ⟨normalize_mem hk3, hocc k hk3⟩
    unfold repoGet
    rw [hfind, hread, hksorted]
    rfl

/-- Witness for `insert_get_roundtrip` on the concrete insert of
`insC3`. -/
theorem insert_get_roundtrip_witness :
    repoGet dbC3a 1 = some (⟨1, pathC3, "alpha topic", 5⟩,
      List.insertionSort (fun a b : String => a ≤ b)
        (normalizeKeywords ["foo"])) ∧
    (List.insertionSort (fun a b : String => a ≤ b)
      (normalizeKeywords ["foo"])).Perm (normalizeKeywords ["foo"]) :=
  insert_get_roundtrip "/data" fsEmpty DB.empty "hello" "alpha topic"
    ["foo"] ⟨2025, 0, 2⟩ 5 fsC3 ⟨dbC3a, 1, pathC3⟩
    (by unfold DB.WF; decide) (by decide) (by decide)

/-- C4 (counterexample): a valid insert whose single keyword normalizes
to "a, b" — which contains the separator the repository reads back
with — makes the immediately following get report the keyword set as
two keywords "a" and "b": not equal, even order-insensitively, to the
stored normalized set. -/
theorem get_splits_stored_keyword :
    insC4.2 = .ok ⟨dbC4, 1, "/data/2025/01/02/s.md"⟩ ∧
    normalizeKeywords ["A, B"] = ["a, b"] ∧
    (repoGet dbC4 1).map (fun x => x.2) = some ["a", "b"] ∧
    ¬ (["a", "b"] : List String).Perm ["a, b"] := by decide

/-! ## Dated save: collision-free naming (C8) -/

theorem digitVal_digitChar {m : Nat} (h : m < 10) :
    digitVal (Nat.digitChar m) = m := by
  interval_cases m <;> decide

theorem toDigitsCore_append (fuel : Nat) : ∀ (n : Nat) (ds : List Char),
    Nat.toDigitsCore 10 fuel n ds = Nat.toDigitsCore 10 fuel n [] ++ ds := by
  induction fuel with
  | zero => intro n ds; rfl
  | succ fuel ih =>
    intro n ds
    simp only [Nat.toDigitsCore]
    by_cases h : n / 10 = 0
    · rw [if_pos h, if_pos h]; rfl
    · rw [if_neg h, if_neg h, ih (n / 10) (Nat.digitChar (n % 10) :: ds),
        ih (n / 10) [Nat.digitChar (n % 10)], List.append_assoc]
      rfl

theorem valD_toDigitsCore : ∀ (fuel n : Nat), n < fuel →
    valD (Nat.toDigitsCore 10 fuel n []) = n := by
  intro fuel
  induction fuel with
  | zero => intro n h; exact absurd h (Nat.not_lt_zero n)
  | succ fuel ih =>
    intro n h
    simp only [Nat.toDigitsCore]
    by_cases h0 : n / 10 = 0
    · rw [if_pos h0]
      have hn : n < 10 := (Nat.div_eq_zero_iff (by norm_num)).mp h0
      show 10 * 0 + digitVal (Nat.digitChar (n % 10)) = n
      rw [digitVal_digitChar (Nat.mod_lt n (by norm_num))]
      omega
    · rw [if_neg h0,
        toDigitsCore_append fuel (n / 10) [Nat.digitChar (n % 10)]]
      have hval : ∀ (xs : List Char) (c : Char),
          valD (xs ++ [c]) = 10 * valD xs + digitVal c := by
        intro xs c
        unfold valD
        rw [List.foldl_append]
        rfl
      have hdiv : n / 10 < fuel := by
        have h1 : 0 < n := by
          rcases Nat.eq_zero_or_pos n with rfl | h1
          · exact absurd (by norm_num) h0
          · exact h1
        have h2 : n / 10 < n := Nat.div_lt_self h1 (by norm_num)
        omega
      rw [hval, ih (n / 10) hdiv, digitVal_digitChar (Nat.mod_lt n (by norm_num))]
      omega

/-- Decimal rendering is injective, so distinct collision suffixes give
distinct file names. -/
theorem natRepr_inj : Function.Injective Nat.repr := by
  intro a b h
  have ha : valD (Nat.toDigits 10 a) = a :=
    valD_toDigitsCore (a + 1) a (Nat.lt_succ_self a)
  have hb : valD (Nat.toDigits 10 b) = b :=
    valD_toDigitsCore (b + 1) b (Nat.lt_succ_self b)
  have hd : Nat.toDigits 10 a = Nat.toDigits 10 b := congrArg String.data h
  rw [← ha, hd, hb]

theorem mkCand_inj (dir stem : String) : Function.Injective (mkCand dir stem) := by
  intro i j h
  have h1 : ((((dir.data ++ "/".data) ++ stem.data) ++ "-".data) ++
        (Nat.repr i).data) ++ ".md".data =
      ((((dir.data ++ "/".data) ++ stem.data) ++ "-".data) ++
        (Nat.repr j).data) ++ ".md".data := congrArg String.data h
  have h2 := List.append_cancel_right h1
  have h3 := List.append_cancel_left h2
  exact natRepr_inj (String.ext h3)

theorem fsExists_true_iff (fs : Fs) (p : String) :
    fsExists fs p = true ↔ p ∈ fs.map Prod.fst := by
  unfold fsExists
  rw [List.any_eq_true]
  constructor
  · rintro ⟨e, he, hb⟩
    exact List.mem_map.mpr ⟨e, he, by simpa using hb⟩
  · intro hmem
    obtain ⟨e, he, hf⟩ := List.mem_map.mp hmem
    exact ⟨e, he, by simpa using hf⟩

/-- Among any `fs.length + 1` consecutive candidate names at least one is
unused: the file system is too small to occupy them all. -/
theorem exists_free (fs : Fs) (dir stem : String) (i : Nat) :
    ∃ j, i ≤ j ∧ j < i + (fs.length + 1) ∧
      fsExists fs (mkCand dir stem j) = false := by
  by_contra hcon
  push_neg at hcon
  have hall : ∀ j ∈ List.range' i (fs.length + 1),
      mkCand dir stem j ∈ fs.map Prod.fst := by
    intro j hj
    obtain ⟨k, hk, rfl⟩ := List.mem_range'.mp hj
    have h1 : i ≤ i + 1 * k := by omega
    have h2 : i + 1 * k < i + (fs.length + 1) := by omega
    have hne := hcon (i + 1 * k) h1 h2
    have htrue : fsExists fs (mkCand dir stem (i + 1 * k)) = true := by
      cases hfe : fsExists fs (mkCand dir stem (i + 1 * k)) with
      | false => exact absurd hfe hne
      | true => rfl
    exact (fsExists_true_iff fs _).mp htrue
  have hnd : ((List.range' i (fs.length + 1)).map (mkCand dir stem)).Nodup :=
    (List.nodup_range' i (fs.length + 1)).map (mkCand_inj dir stem)
  have hsub : ((List.range' i (fs.length + 1)).map (mkCand dir stem)).toFinset ⊆
      (fs.map Prod.fst).toFinset := by
    intro x hx
    rw [List.mem_toFinset] at hx ⊢
    obtain ⟨j, hj, rfl⟩ := List.mem_map.mp hx
    exact hall j hj
  have hcard := Finset.card_le_card hsub
  rw [List.toFinset_card_of_nodup hnd, List.length_map, List.length_range']
    at hcard
  have hle : (fs.map Prod.fst).toFinset.card ≤ fs.length :=
    le_trans (List.toFinset_card_le (fs.map Prod.fst))
      (le_of_eq (List.length_map _ _))
  omega

/-- The collision loop returns the first unused candidate at or after the
start index, provided one exists within the fuel window. -/
theorem findFree_spec (fs : Fs) (dir stem : String) : ∀ (fuel i : Nat),
    (∃ j, i ≤ j ∧ j < i + fuel ∧ fsExists fs (mkCand dir stem j) = false) →
    ∃ j, i ≤ j ∧ findFree fs dir stem i fuel = mkCand dir stem j ∧
      fsExists fs (mkCand dir stem j) = false ∧
      ∀ j2, i ≤ j2 → j2 < j → fsExists fs (mkCand dir stem j2) = true := by
  intro fuel
  induction fuel with
  | zero =>
    rintro i ⟨j, h1, h2, _⟩
    exact absurd h2 (by omega)
  | succ fuel ih =>
    intro i hex
    cases hc : fsExists fs (mkCand dir stem i) with
    | true =>
      have hex' : ∃ j, i + 1 ≤ j ∧ j < (i + 1) + fuel ∧
          fsExists fs (mkCand dir stem j) = false := by
        obtain ⟨j, h1, h2, h3⟩ := hex
        refine ⟨j, ?_, by omega, h3⟩
        rcases Nat.eq_or_lt_of_le h1 with rfl | h4
        · rw [hc] at h3
          exact Bool.noConfusion h3
        · omega
      obtain ⟨j, g1, g2, g3, g4⟩ := ih (i + 1) hex'
      refine ⟨j, by omega, ?_, g3, ?_⟩
      · show findFree fs dir stem i (fuel + 1) = mkCand dir stem j
        simp only [findFree]
        rw [if_pos hc]
        exact g2
      · intro j2 hj2 hlt
        rcases Nat.eq_or_lt_of_le hj2 with rfl | h5
        · exact hc
        · exact g4 j2 h5 hlt
    | false =>
      refine ⟨i, Nat.le_refl _, ?_, hc, ?_⟩
      · simp only [findFree]
        rw [if_neg (by simp [hc])]
      · intro j2 hj2 hlt
        exact absurd (Nat.lt_of_le_of_lt hj2 hlt) (Nat.lt_irrefl i)

/-- The sanitized file name always carries the forced `.md` extension. -/
theorem forcedName_md (hint : String) : ∃ pre, forcedName hint = pre ++ ".md" := by
  have key : ∀ rn : String, ∃ pre,
      (if jsEndsWith rn ".md" then rn else rn ++ ".md") = pre ++ ".md" := by
    intro rn
    by_cases h : jsEndsWith rn ".md" = true
    · rw [if_pos h]
      have hsuf : ".md".data <:+ rn.data := by
        unfold jsEndsWith at h
        exact List.isSuffixOf_iff_suffix.mp h
      obtain ⟨t, ht⟩ := hsuf
      exact ⟨String.mk t, String.ext ht.symm⟩
    · rw [if_neg h]
      exact ⟨rn, rfl⟩
  exact key (jsBasename (if hint = "" then "note.md" else hint))

/-- C8: `saveDated` writes under the dated directory derived from the
current date, using the sanitized hint with a forced `.md` extension; the
chosen path never names an existing file, so no data is overwritten; on a
name collision it appends the smallest free numeric suffix starting at 1;
the returned state is exactly the old state plus the new binding. -/
theorem saveDated_spec (baseDir : String) (fs : Fs) (hint content : String)
    (now : JsDate) :
    ((saveDated baseDir fs hint content now).1.path =
        datedDir baseDir now ++ "/" ++ forcedName hint ∨
      ∃ i, 1 ≤ i ∧ (saveDated baseDir fs hint content now).1.path =
        mkCand (datedDir baseDir now) (stemOf hint) i) ∧
    fsExists fs (saveDated baseDir fs hint content now).1.path = false ∧
    (saveDated baseDir fs hint content now).2 =
      fsWrite fs (saveDated baseDir fs hint content now).1.path content ∧
    (fsExists fs (datedDir baseDir now ++ "/" ++ forcedName hint) = false →
      (saveDated baseDir fs hint content now).1.path =
        datedDir baseDir now ++ "/" ++ forcedName hint) ∧
    (fsExists fs (datedDir baseDir now ++ "/" ++ forcedName hint) = true →
      ∃ i, 1 ≤ i ∧
        (saveDated baseDir fs hint content now).1.path =
          mkCand (datedDir baseDir now) (stemOf hint) i ∧
        fsExists fs (mkCand (datedDir baseDir now) (stemOf hint) i) = false ∧
        ∀ j, 1 ≤ j → j < i →
          fsExists fs (mkCand (datedDir baseDir now) (stemOf hint) j) = true) ∧
    (∃ pre, forcedName hint = pre ++ ".md") := by
  by_cases hfe :
      fsExists fs (datedDir baseDir now ++ "/" ++ forcedName hint) = true
  · have hrun : saveDated baseDir fs hint content now =
        (⟨findFree fs (datedDir baseDir now) (stemOf hint) 1 (fs.length + 1),
           content.length⟩,
         fsWrite fs
           (findFree fs (datedDir baseDir now) (stemOf hint) 1 (fs.length + 1))
           content) := by
      simp only [saveDated]
      rw [if_pos hfe]
    obtain ⟨j, hj1, heq, hfree, hleast⟩ :=
      findFree_spec fs (datedDir baseDir now) (stemOf hint) (fs.length + 1) 1
        (exists_free fs (datedDir baseDir now) (stemOf hint) 1)
    refine ⟨Or.inr ⟨j, hj1, ?_⟩, ?_, ?_, ?_, ?_, forcedName_md hint⟩
    · rw [hrun]
      exact heq
    · rw [hrun]
      show fsExists fs
        (findFree fs (datedDir baseDir now) (stemOf hint) 1 (fs.length + 1))
        = false
      rw [heq]
      exact hfree
    · rw [hrun]
    · intro hno
      rw [hno] at hfe
      exact Bool.noConfusion hfe
    · intro _
      refine ⟨j, hj1, ?_, hfree, hleast⟩
      rw [hrun]
      exact heq
  · have hfe' :
        fsExists fs (datedDir baseDir now ++ "/" ++ forcedName hint) = false := by
      cases hx : fsExists fs (datedDir baseDir now ++ "/" ++ forcedName hint) with
      | false => rfl
      | true => exact absurd hx hfe
    have hrun : saveDated baseDir fs hint content now =
        (⟨datedDir baseDir now ++ "/" ++ forcedName hint, content.length⟩,
         fsWrite fs (datedDir baseDir now ++ "/" ++ forcedName hint) content) := by
      simp only [saveDated]
      rw [if_neg hfe]
    refine ⟨Or.inl (by rw [hrun]), ?_, by rw [hrun], fun _ => by rw [hrun],
      ?_, forcedName_md hint⟩
    · rw [hrun]
      exact hfe'
    · intro hyes
      rw [hyes] at hfe'
      exact Bool.noConfusion hfe'

theorem saveDated_spec_witness :
    fsExists fsC8 (saveDated "/data" fsC8 "note.md" "c2" ⟨2025, 0, 2⟩).1.path
      = false ∧
    (saveDated "/data" fsC8 "note.md" "c2" ⟨2025, 0, 2⟩).1.path =
      "/data/2025/01/02/note-1.md" ∧
    fsExists fsC8 "/data/2025/01/02/note.md" = true ∧
    (saveDated "/data" fsEmpty "note.md" "c1" ⟨2025, 0, 2⟩).1.path =
      "/data/2025/01/02/note.md" :=
  ⟨(saveDated_spec "/data" fsC8 "note.md" "c2" ⟨2025, 0, 2⟩).2.1,
   by decide, by decide, by decide⟩

end AgentMemory
